import Mathlib

/-!
# Verification of the snippt-link payload codec and URL binder

Shallow embedding of `src/compression.ts`: the `normalizeCode` cleanup, the
dictionary substitution stage, URL-safe base64 (the browser's `btoa`/`atob`
modelled after the WHATWG forgiving-base64 algorithm), `encode`/`decode`, and
`updateUrlHash` with an explicit browser-location state.

JS strings are modelled as Lean `String` (lists of Unicode scalar values);
regex-free string operations of the source are translated to structurally
recursive list functions so that everything evaluates by `decide`.

The external `fflate` library (`strToU8`, `strFromU8`, `compressSync`,
`decompressSync`) is not part of this repository; it is modelled as an
abstract `Compressor`: a lossless, byte-producing, never-empty compression
stage, which is the documented contract of gzip-style compression that the
codec relies on.  All round-trip theorems are proved for every such
compressor, and a concrete executable instance `idComp` is provided so that
witnesses evaluate.
-/

/-- The JS whitespace set used by `String.prototype.trim`/`trimEnd` and `\s`:
WhiteSpace (TAB, VT, FF, SPACE, NBSP, ZWNBSP, Unicode space separators) plus
LineTerminator (LF, CR, LS, PS). -/
def isJsWhitespace (c : Char) : Bool :=
  let n := c.toNat
  n = 0x09 || n = 0x0A || n = 0x0B || n = 0x0C || n = 0x0D || n = 0x20 || n = 0xA0 ||
  n = 0x1680 || (0x2000 ≤ n && n ≤ 0x200A) || n = 0x2028 || n = 0x2029 ||
  n = 0x202F || n = 0x205F || n = 0x3000 || n = 0xFEFF

/-- Boolean prefix test on character lists. -/
def isPre : List Char → List Char → Bool
  | [], _ => true
  | _ :: _, [] => false
  | a :: as, b :: bs => (a = b) && isPre as bs

/-- Fuelled worker for `replaceList`.  Each step consumes at least one
character of the subject, so fuel `s.length` always suffices. -/
def replaceGo (p t : List Char) : Nat → List Char → List Char
  | _, [] => []
  | 0, s => s
  | fuel + 1, c :: rest =>
    if isPre p (c :: rest) then t ++ replaceGo p t fuel (rest.drop (p.length - 1))
    else c :: replaceGo p t fuel rest

/-- JS `s.split(pattern).join(token)` / global literal `s.replace`: replace the
non-overlapping occurrences of `p`, scanned left to right, by `t`.  All
patterns used by the source are nonempty; the empty pattern is mapped to the
identity. -/
def replaceList (p t s : List Char) : List Char :=
  if p = [] then s else replaceGo p t s.length s

/-- JS `s.split('\n')` on the character list: the `'\n'`-separated pieces
(always at least one piece, pieces contain no `'\n'`). -/
def splitNl : List Char → List (List Char)
  | [] => [[]]
  | c :: rest =>
    let r := splitNl rest
    if c = '\n' then [] :: r
    else (c :: r.headD []) :: r.tail

/-- JS `lines.join('\n')`. -/
def joinNl : List (List Char) → List Char
  | [] => []
  | [l] => l
  | l :: ls => l ++ '\n' :: joinNl ls

/-- JS `String.prototype.trimEnd` on a character list. -/
def trimEndList (l : List Char) : List Char :=
  (l.reverse.dropWhile isJsWhitespace).reverse

/-- JS `String.prototype.trim` on a character list. -/
def trimList (l : List Char) : List Char :=
  trimEndList (l.dropWhile isJsWhitespace)

/-- What the regex `/\n{3,}/g → '\n\n'` emits for a maximal run of `k`
newlines. -/
def nlRun (k : Nat) : List Char :=
  if 3 ≤ k then ['\n', '\n'] else List.replicate k '\n'

/-- State machine for `/\n{3,}/g → '\n\n'`: `k` counts the pending run of
newlines already consumed. -/
def collapseGo (k : Nat) : List Char → List Char
  | [] => nlRun k
  | c :: rest =>
    if c = '\n' then collapseGo (k + 1) rest
    else nlRun k ++ c :: collapseGo 0 rest

/-- JS `s.replace(/\n{3,}/g, '\n\n')`: every maximal run of three or more
newlines becomes exactly two newlines. -/
def collapseNewlines (s : List Char) : List Char := collapseGo 0 s

/-- `normalizeCode` from `compression.ts`:
line endings to `\n`, per-line `trimEnd`, cap consecutive newlines at two,
then `trim` the whole text. -/
def normalizeCode (code : String) : String :=
  ⟨trimList (collapseNewlines (joinNl
    ((splitNl (replaceList ['\r', '\n'] ['\n'] code.data)).map trimEndList)))⟩

/-- The global dictionary of `compression.ts`: common code patterns paired
with single private-use-area tokens (U+E000 sqq.), applied in order. -/
def DICTIONARY : List (String × String) := [
  ("    ", "\uE000"),
  ("console.log(", "\uE001"),
  ("function ", "\uE002"),
  ("return ", "\uE003"),
  ("const ", "\uE004"),
  ("export ", "\uE005"),
  ("import ", "\uE006"),
  ("async ", "\uE007"),
  ("await ", "\uE008"),
  ("class ", "\uE009"),
  ("this.", "\uE00A"),
  ("null", "\uE00B"),
  ("true", "\uE00C"),
  ("false", "\uE00D"),
  ("undefined", "\uE00E"),
  ("=> \x7b", "\uE00F"),
  ("() \x7b", "\uE010"),
  (") \x7b", "\uE011"),
  ("\x22: \x22", "\uE012"),
  ("\x22, \x22", "\uE013"),
  (" = ", "\uE014"),
  (" === ", "\uE015"),
  (" !== ", "\uE016"),
  ("public ", "\uE017"),
  ("private ", "\uE018"),
  ("static ", "\uE019"),
  ("throw ", "\uE01A"),
  ("catch ", "\uE01B"),
  ("try \x7b", "\uE01C"),
  ("if (", "\uE01D"),
  ("for (", "\uE01E")]

/-- `applyDictionary`: replace each pattern by its token, in listed order. -/
def applyDictionary (text : String) : String :=
  DICTIONARY.foldl (fun result pt => ⟨replaceList pt.1.data pt.2.data result.data⟩) text

/-- `reverseDictionary`: replace each token back by its pattern, in reverse
listed order. -/
def reverseDictionary (text : String) : String :=
  DICTIONARY.reverse.foldl (fun result pt => ⟨replaceList pt.2.data pt.1.data result.data⟩) text

/-- The standard base64 alphabet, in index order. -/
def b64Table : List Char :=
  "ABCDEFGHIJKLMNOPQRSTUVWXYZabcdefghijklmnopqrstuvwxyz0123456789+/".data

/-- Character for a 6-bit group (out-of-range indices, which never arise from
byte input, default inside the alphabet). -/
def b64Char (n : Nat) : Char := b64Table.getD n 'A'

/-- The browser's `btoa` on a byte list: 3 bytes per 4 characters, `'='`
padding for a trailing 1- or 2-byte group. -/
def btoaBytes : List Nat → List Char
  | [] => []
  | [b0] => [b64Char (b0 / 4), b64Char (b0 % 4 * 16), '=', '=']
  | [b0, b1] => [b64Char (b0 / 4), b64Char (b0 % 4 * 16 + b1 / 16), b64Char (b1 % 16 * 4), '=']
  | b0 :: b1 :: b2 :: rest =>
    b64Char (b0 / 4) :: b64Char (b0 % 4 * 16 + b1 / 16) ::
    b64Char (b1 % 16 * 4 + b2 / 64) :: b64Char (b2 % 64) :: btoaBytes rest

/-- JS `.replace(/=+$/, '')`: drop the trailing run of `'='`. -/
def stripTrailingEq (l : List Char) : List Char :=
  (l.reverse.dropWhile (fun c => c = '=')).reverse

/-- `toUrlSafeBase64` from `compression.ts`: `btoa`, then `'+' → '-'`,
`'/' → '_'`, then strip `'='` padding. -/
def toUrlSafeBase64 (data : List Nat) : String :=
  ⟨stripTrailingEq (((btoaBytes data).map (fun c => if c = '+' then '-' else c)).map
    (fun c => if c = '/' then '_' else c))⟩

/-- Index of a character in a table (first occurrence). -/
def tableIdx : List Char → Char → Option Nat
  | [], _ => none
  | t :: rest, c => if c = t then some 0 else (tableIdx rest c).map (· + 1)

/-- Index in the standard base64 alphabet. -/
def b64Index (c : Char) : Option Nat := tableIdx b64Table c

/-- ASCII whitespace stripped by forgiving-base64 (`atob`). -/
def isB64Ws (c : Char) : Bool :=
  c = '\t' || c = '\n' || c = '\x0c' || c = '\r' || c = ' '

/-- Forgiving-base64 step 2: if the data ends with one or two `'='`, remove
them. -/
def stripEq12 (l : List Char) : List Char :=
  match l.reverse with
  | '=' :: '=' :: r => r.reverse
  | '=' :: r => r.reverse
  | _ => l

/-- Map every character to its base64 index; fail if any is outside the
alphabet. -/
def mapB64 : List Char → Option (List Nat)
  | [] => some []
  | c :: rest =>
    match b64Index c, mapB64 rest with
    | some v, some vs => some (v :: vs)
    | _, _ => none

/-- Reassemble bytes from 6-bit groups: full groups of four give three bytes;
a trailing group of two or three gives one or two bytes (low bits
discarded), as in forgiving-base64. -/
def b64Quads : List Nat → List Nat
  | a :: b :: c :: d :: rest =>
    (a * 4 + b / 16) :: (b % 16 * 16 + c / 4) :: (c % 4 * 64 + d) :: b64Quads rest
  | [a, b] => [a * 4 + b / 16]
  | [a, b, c] => [a * 4 + b / 16, b % 16 * 16 + c / 4]
  | _ => []

/-- The browser's `atob` (WHATWG forgiving-base64 decode): strip ASCII
whitespace, strip well-placed padding, reject length `≡ 1 (mod 4)` and
out-of-alphabet characters, then reassemble the bytes. -/
def atobBytes (input : List Char) : Option (List Nat) :=
  let data0 := input.filter (fun c => !isB64Ws c)
  let data := if data0.length % 4 = 0 then stripEq12 data0 else data0
  if data.length % 4 = 1 then none
  else
    match mapB64 data with
    | none => none
    | some vals => some (b64Quads vals)

/-- `fromUrlSafeBase64` from `compression.ts`: `'-' → '+'`, `'_' → '/'`, pad
with `'='` to a multiple of four, then `atob`; `none` models the exception
`atob` throws on malformed input. -/
def fromUrlSafeBase64 (str : List Char) : Option (List Nat) :=
  let base64 := (str.map (fun c => if c = '-' then '+' else c)).map
    (fun c => if c = '_' then '/' else c)
  atobBytes (base64 ++ List.replicate ((4 - base64.length % 4) % 4) '=')

/-- The 6-bit groups `btoa` emits for a byte list, without the `'='` padding
characters.  Used to state the base64 round-trip. -/
def enc6 : List Nat → List Nat
  | [] => []
  | [b0] => [b0 / 4, b0 % 4 * 16]
  | [b0, b1] => [b0 / 4, b0 % 4 * 16 + b1 / 16, b1 % 16 * 4]
  | b0 :: b1 :: b2 :: rest =>
    b0 / 4 :: (b0 % 4 * 16 + b1 / 16) :: (b1 % 16 * 4 + b2 / 64) :: b2 % 64 :: enc6 rest

/-- The two URL-safe substitutions of `toUrlSafeBase64` fused into one map. -/
def urlSwap (c : Char) : Char :=
  if c = '+' then '-' else if c = '/' then '_' else c

/-- The URL-safe base64 alphabet: the only characters an encoded token may
contain. -/
def base64UrlAlphabet : List Char :=
  "ABCDEFGHIJKLMNOPQRSTUVWXYZabcdefghijklmnopqrstuvwxyz0123456789-_".data

/-- The decoded snippet record `{code, lang?}` (`SnippetData` in
`compression.ts`); `lang = none` models an absent (`undefined`) field. -/
structure SnippetData where
  code : String
  lang : Option String
deriving DecidableEq

/-- The external `fflate` stage of the pipeline (`strToU8` + `compressSync`
level 9 on encode, `decompressSync` + `strFromU8` on decode), modelled by its
contract: a total byte-producing compression whose decompression restores the
input exactly (`roundtrip`), whose output bytes fit in `Uint8Array`
(`bounded`), and which, being a gzip container, never produces an empty byte
string for a nonempty input (`compress_ne`).  `decompress = none` models the
exception thrown on malformed compressed data. -/
structure Compressor where
  compress : String → List Nat
  decompress : List Nat → Option String
  bounded : ∀ s : String, ∀ b ∈ compress s, b < 256
  roundtrip : ∀ s : String, decompress (compress s) = some s
  compress_ne : ∀ s : String, s ≠ "" → compress s ≠ []

/-- The regex `/^[a-zA-Z][a-zA-Z0-9-]*$/` used by `decode` on a candidate
language prefix. -/
def langRegexTest (s : String) : Bool :=
  match s.data with
  | [] => false
  | c :: rest => c.isAlpha && rest.all (fun x => x.isAlpha || x.isDigit || x = '-')

/-- JS `indexOf` of `'|'` (first occurrence). -/
def firstPipeIdx : List Char → Option Nat
  | [] => none
  | c :: rest => if c = '|' then some 0 else (firstPipeIdx rest).map (· + 1)

/-- The tail of `decode`: inspect the restored text for an embedded
`lang|code` prefix (`pipeIndex > 0 && pipeIndex < 20` and the language
regex), else return the whole text as code. -/
def splitLang (restored : String) : SnippetData :=
  match firstPipeIdx restored.data with
  | some i =>
    if 0 < i ∧ i < 20 then
      if langRegexTest ⟨restored.data.take i⟩ then
        { lang := some ⟨restored.data.take i⟩, code := ⟨restored.data.drop (i + 1)⟩ }
      else { code := restored, lang := none }
    else { code := restored, lang := none }
  | none => { code := restored, lang := none }

/-- The payload `encode` builds before compression: `lang + '|' + normalized`
when `lang` is truthy (present and nonempty), else the normalized code. -/
def payloadOf (code : String) (lang : Option String) : String :=
  match lang with
  | some l => if l = "" then normalizeCode code else l ++ "|" ++ normalizeCode code
  | none => normalizeCode code

/-- `encode` from `compression.ts`: normalize, tag, dictionary-substitute,
compress, base64url. -/
def encode (C : Compressor) (code : String) (lang : Option String) : String :=
  toUrlSafeBase64 (C.compress (applyDictionary (payloadOf code lang)))

/-- `decode` from `compression.ts`: `null` on empty input; base64-decode and
decompress inside a try/catch (`none` on failure); `null` on an empty
decompressed text; reverse the dictionary and split a language prefix. -/
def decode (C : Compressor) (hash : String) : Option SnippetData :=
  if hash = "" then none
  else
    match fromUrlSafeBase64 hash.data with
    | none => none
    | some compressed =>
      match C.decompress compressed with
      | none => none
      | some decompressed =>
        if decompressed = "" then none
        else some (splitLang (reverseDictionary decompressed))

/-- Modelled from the spec: "a letter followed by letters, digits, or
hyphens" — the spec's wording of the language-identifier pattern, for
comparison with the code's regex. -/
def specLangPattern : List Char → Bool
  | [] => false
  | c :: rest => c.isAlpha && rest.all (fun x => x.isAlpha || x.isDigit || x = '-')

/-- Modelled from the spec: split off a language tag exactly when the index
of the first pipe is in `[1, 19]` and the text before it matches the
language-identifier pattern; in every other case the whole text is the code
and there is no language. -/
def specSplitLang (restored : String) : SnippetData :=
  match firstPipeIdx restored.data with
  | some i =>
    if 1 ≤ i ∧ i ≤ 19 ∧ specLangPattern (restored.data.take i) then
      { lang := some ⟨restored.data.take i⟩, code := ⟨restored.data.drop (i + 1)⟩ }
    else { code := restored, lang := none }
  | none => { code := restored, lang := none }

/-- The claim's valid-language pattern `^[A-Za-z][A-Za-z0-9-]{0,18}$`. -/
def langValid (l : String) : Bool :=
  match l.data with
  | [] => false
  | c :: rest =>
    c.isAlpha && rest.length ≤ 18 && rest.all (fun x => x.isAlpha || x.isDigit || x = '-')

/-- No character of `s` is one of the dictionary's reserved token
characters.  Inputs containing a reserved private-use token verbatim are the
acknowledged corruption case of the dictionary stage. -/
def dictTokenFree (s : String) : Prop :=
  ∀ pt ∈ DICTIONARY, ∀ ch ∈ pt.2.data, ch ∉ s.data

instance decDictTokenFree (s : String) : Decidable (dictTokenFree s) :=
  inferInstanceAs (Decidable (∀ pt ∈ DICTIONARY, ∀ ch ∈ pt.2.data, ch ∉ s.data))

/-- URL length warning threshold (characters). -/
def URL_WARNING_LIMIT : Nat := 2000

/-- URL length error threshold (characters). -/
def URL_ERROR_LIMIT : Nat := 8000

/-- The status record `updateUrlHash` returns. -/
structure UrlStatus where
  length : Nat
  isWarning : Bool
  isError : Bool
deriving DecidableEq

/-- The browser location and history state touched by `updateUrlHash`:
`origin`, `pathname`, the current fragment (including its leading `'#'`,
as in `window.location.hash`), and the navigation-history stack, which
`history.replaceState` never grows. -/
structure BrowserState where
  origin : String
  pathname : String
  fragment : String
  history : List String
deriving DecidableEq

/-- `updateUrlHash` from `compression.ts`: encode, classify the full URL
length against the two limits, and replace the fragment in place
(`history.replaceState`, no history entry) unless the error limit is
exceeded, in which case the location is left untouched. -/
def updateUrlHash (C : Compressor) (st : BrowserState) (code : String)
    (lang : Option String) : UrlStatus × BrowserState :=
  let encoded := encode C code lang
  let fullUrl := st.origin ++ st.pathname ++ "#" ++ encoded
  let status : UrlStatus :=
    { length := fullUrl.length,
      isWarning := decide (URL_WARNING_LIMIT < fullUrl.length) &&
        decide (fullUrl.length ≤ URL_ERROR_LIMIT),
      isError := decide (URL_ERROR_LIMIT < fullUrl.length) }
  if !status.isError then (status, { st with fragment := "#" ++ encoded })
  else (status, st)

/-- `readUrlHash` from `compression.ts`: strip the leading `'#'` of the
current fragment and decode. -/
def readUrlHash (C : Compressor) (st : BrowserState) : Option SnippetData :=
  decode C ⟨st.fragment.data.drop 1⟩

/-- Encode one scalar value as three big-endian bytes. -/
def char3 (c : Char) : List Nat :=
  [c.toNat / 65536, c.toNat / 256 % 256, c.toNat % 256]

/-- A concrete lossless "compression": three bytes per scalar value. -/
def comp3 (s : String) : List Nat :=
  s.data.foldr (fun c acc => char3 c ++ acc) []

/-- Inverse of `comp3` on well-formed byte lists; fails on a ragged length or
an invalid scalar value. -/
def decomp3 : List Nat → Option (List Char)
  | [] => some []
  | a :: b :: c :: rest =>
    let n := a * 65536 + b * 256 + c
    if Nat.isValidChar n then (decomp3 rest).map (Char.ofNat n :: ·) else none
  | _ => none

/-- A concrete `Compressor` used to evaluate witnesses. -/
def idComp : Compressor where
  compress := comp3
  decompress := fun bs => (decomp3 bs).map (⟨·⟩)
  bounded := by
    have key : ∀ l : List Char, ∀ b ∈ l.foldr (fun c acc => char3 c ++ acc) [], b < 256 := by
      intro l
      induction l with
      | nil => intro b hb; simp at hb
      | cons c cs ih =>
        intro b hb
        simp only [List.foldr_cons] at hb
        rcases List.mem_append.mp hb with h | h
        · have hc : c.toNat < 1114112 := by
            have := c.valid
            have hv : Nat.isValidChar c.toNat := by
              simpa [Nat.isValidChar, Char.toNat] using this
            rcases hv with h1 | h1 <;> omega
          simp only [char3, List.mem_cons, List.not_mem_nil, or_false] at h
          rcases h with rfl | rfl | rfl <;> omega
        · exact ih b h
    exact fun s => key s.data
  roundtrip := by
    have hvalid : ∀ c : Char, Nat.isValidChar c.toNat := by
      intro c
      have := c.valid
      simpa [Nat.isValidChar, Char.toNat] using this
    have hofNat : ∀ c : Char, Char.ofNat c.toNat = c := by
      intro c
      rcases c with ⟨⟨⟨n, hlt⟩⟩, hv⟩
      simp [Char.ofNat, Char.toNat, hv, Char.ofNatAux]
      rfl
    have key : ∀ l : List Char, decomp3 (l.foldr (fun c acc => char3 c ++ acc) []) = some l := by
      intro l
      induction l with
      | nil => rfl
      | cons c cs ih =>
        simp only [List.foldr_cons, char3, List.cons_append, List.nil_append, decomp3, ih]
        have hval : c.toNat / 65536 * 65536 + c.toNat / 256 % 256 * 256 + c.toNat % 256
            = c.toNat := by omega
        rw [hval, if_pos (hvalid c)]
        simp [hofNat]
        exact ih
    intro s
    show ((decomp3 (comp3 s)).map fun x => String.mk x) = some s
    rw [show comp3 s = s.data.foldr (fun c acc => char3 c ++ acc) [] from rfl, key]
    rfl
  compress_ne := by
    intro s hs
    cases hd : s.data with
    | nil =>
      exact absurd (show s = "" from by cases s; simp_all) hs
    | cons c cs =>
      simp [comp3, hd, char3]

/-- A whitespace character other than `'\n'` immediately followed by `'\n'`:
the adjacency that `trimEnd`-normalised lines can never exhibit. -/
def badPair (a b : Char) : Bool := isJsWhitespace a && !(a = '\n') && (b = '\n')

/-- No non-newline whitespace character is immediately followed by a
newline. -/
def wsNlOk : List Char → Bool
  | a :: b :: rest => !badPair a b && wsNlOk (b :: rest)
  | _ => true

/-- No three consecutive newlines anywhere. -/
def noTriple : List Char → Bool
  | a :: b :: c :: rest => !(a = '\n' && b = '\n' && c = '\n') && noTriple (b :: c :: rest)
  | _ => true

/-- No carriage return immediately followed by a newline: a single
line-ending convention. -/
def crlfFree : List Char → Bool
  | a :: b :: rest => !(a = '\r' && b = '\n') && crlfFree (b :: rest)
  | _ => true

/-- Every `'\n'`-separated line is `trimEnd`-fixed (no trailing
whitespace). -/
def linesTrimmed (s : List Char) : Bool :=
  (splitNl s).all (fun l => decide (trimEndList l = l))

/-! ## Properties of literal replacement -/

theorem isPre_append (p : List Char) : ∀ s : List Char, isPre p s = true → p ++ s.drop p.length = s := by
  induction p with
  | nil => intro s _; simp
  | cons a as ih =>
    intro s h
    cases s with
    | nil => simp [isPre] at h
    | cons b bs =>
      simp only [isPre, Bool.and_eq_true, decide_eq_true_eq] at h
      obtain ⟨rfl, h2⟩ := h
      simpa [List.length_cons, List.drop_succ_cons] using ih bs h2

theorem replaceGo_fuel (p t : List Char) :
    ∀ (f₁ : Nat) (s : List Char) (f₂ : Nat), s.length ≤ f₁ → s.length ≤ f₂ →
      replaceGo p t f₁ s = replaceGo p t f₂ s := by
  intro f₁
  induction f₁ with
  | zero =>
    intro s f₂ h1 _
    have : s = [] := List.eq_nil_of_length_eq_zero (Nat.le_zero.mp h1)
    subst this
    cases f₂ <;> rfl
  | succ f ih =>
    intro s f₂ h1 h2
    cases s with
    | nil => cases f₂ <;> rfl
    | cons c rest =>
      cases f₂ with
      | zero => simp at h2
      | succ g =>
        simp only [replaceGo]
        by_cases hpre : isPre p (c :: rest) = true
        · rw [if_pos hpre, if_pos hpre]
          have hd : (rest.drop (p.length - 1)).length ≤ rest.length := by
            simp [List.length_drop]
          have hr : rest.length ≤ f := by simpa using h1
          have hg : rest.length ≤ g := by simpa using h2
          rw [ih (rest.drop (p.length - 1)) g (Nat.le_trans hd hr) (Nat.le_trans hd hg)]
        · rw [if_neg hpre, if_neg hpre]
          have hr : rest.length ≤ f := by simpa using h1
          have hg : rest.length ≤ g := by simpa using h2
          rw [ih rest g hr hg]

theorem replaceList_nil (p t : List Char) : replaceList p t [] = [] := by
  unfold replaceList
  by_cases h : p = [] <;> simp [h, replaceGo]

theorem replaceList_pos (p t : List Char) (c : Char) (rest : List Char)
    (hp : p ≠ []) (hpre : isPre p (c :: rest) = true) :
    replaceList p t (c :: rest) = t ++ replaceList p t (rest.drop (p.length - 1)) := by
  unfold replaceList
  rw [if_neg hp, if_neg hp]
  show replaceGo p t (rest.length + 1) (c :: rest) = _
  rw [replaceGo, if_pos hpre]
  congr 1
  exact replaceGo_fuel p t rest.length _ _ (by simp [List.length_drop]) (Nat.le_refl _)

theorem replaceList_neg (p t : List Char) (c : Char) (rest : List Char)
    (hp : p ≠ []) (hpre : isPre p (c :: rest) = false) :
    replaceList p t (c :: rest) = c :: replaceList p t rest := by
  unfold replaceList
  rw [if_neg hp, if_neg hp]
  show replaceGo p t (rest.length + 1) (c :: rest) = _
  rw [replaceGo, if_neg (by simp [hpre])]

theorem drop_cons_pred (p : List Char) (c : Char) (rest : List Char) (hp : p ≠ []) :
    rest.drop (p.length - 1) = (c :: rest).drop p.length := by
  cases p with
  | nil => exact absurd rfl hp
  | cons a as => simp [List.drop_succ_cons]

theorem mem_replaceList (p t : List Char) (s : List Char) :
    ∀ a ∈ replaceList p t s, a ∈ s ∨ a ∈ t := by
  by_cases hp : p = []
  · intro a ha
    rw [replaceList, if_pos hp] at ha
    exact Or.inl ha
  cases s with
  | nil => intro a ha; rw [replaceList_nil] at ha; simp at ha
  | cons c rest =>
    intro a ha
    by_cases hpre : isPre p (c :: rest) = true
    · rw [replaceList_pos p t c rest hp hpre] at ha
      rcases List.mem_append.mp ha with h | h
      · exact Or.inr h
      · rcases mem_replaceList p t (rest.drop (p.length - 1)) a h with h' | h'
        · exact Or.inl (List.mem_cons_of_mem c (List.drop_subset _ _ h'))
        · exact Or.inr h'
    · rw [replaceList_neg p t c rest hp (by simpa using hpre)] at ha
      rcases List.mem_cons.mp ha with h | h
      · exact Or.inl (h ▸ List.mem_cons_self c rest)
      · rcases mem_replaceList p t rest a h with h' | h'
        · exact Or.inl (List.mem_cons_of_mem c h')
        · exact Or.inr h'
termination_by s.length
decreasing_by
  · simp [List.length_drop]; omega
  · simp

theorem not_mem_replaceList (p t : List Char) (s : List Char) (a : Char)
    (has : a ∉ s) (hat : a ∉ t) : a ∉ replaceList p t s := by
  intro h
  rcases mem_replaceList p t s a h with h' | h'
  · exact has h'
  · exact hat h'

theorem replaceList_ne_nil (p t s : List Char) (ht : t ≠ []) (hs : s ≠ []) :
    replaceList p t s ≠ [] := by
  by_cases hp : p = []
  · rw [replaceList, if_pos hp]; exact hs
  cases s with
  | nil => exact absurd rfl hs
  | cons c rest =>
    by_cases hpre : isPre p (c :: rest) = true
    · rw [replaceList_pos p t c rest hp hpre]
      simp [ht]
    · rw [replaceList_neg p t c rest hp (by simpa using hpre)]
      simp

theorem replace_single_inv (p : List Char) (c : Char) :
    ∀ s : List Char, p ≠ [] → c ∉ p → c ∉ s →
      replaceList [c] p (replaceList p [c] s) = s
  | [], _, _, _ => by rw [replaceList_nil, replaceList_nil]
  | a :: rest, hp, hcp, hcs => by
    by_cases hpre : isPre p (a :: rest) = true
    · rw [replaceList_pos p [c] a rest hp hpre]
      have hXc : replaceList [c] p (c :: replaceList p [c] (rest.drop (p.length - 1)))
          = p ++ replaceList [c] p (replaceList p [c] (rest.drop (p.length - 1))) := by
        rw [replaceList_pos [c] p c _ (by simp) (by simp [isPre])]
        simp
      show replaceList [c] p ([c] ++ _) = _
      rw [List.singleton_append, hXc]
      have hcs' : c ∉ rest.drop (p.length - 1) := fun h => hcs
        (List.mem_cons_of_mem a (List.drop_subset _ _ h))
      rw [replace_single_inv p c (rest.drop (p.length - 1)) hp hcp hcs']
      rw [drop_cons_pred p a rest hp]
      exact isPre_append p (a :: rest) hpre
    · rw [replaceList_neg p [c] a rest hp (by simpa using hpre)]
      have hca : c ≠ a := fun h => hcs (h ▸ List.mem_cons_self a rest)
      rw [replaceList_neg [c] p a _ (by simp) (by simp [isPre, hca])]
      have hcs' : c ∉ rest := fun h => hcs (List.mem_cons_of_mem a h)
      rw [replace_single_inv p c rest hp hcp hcs']
termination_by s => s.length
decreasing_by
  · simp [List.length_drop]; omega
  · simp

/-! ## Properties of the dictionary stage -/

theorem fold_replace_nil (D : List (String × String)) :
    ∀ s : String, s.data = [] →
      D.foldl (fun r pt => (⟨replaceList pt.1.data pt.2.data r.data⟩ : String)) s = s := by
  induction D with
  | nil => intro s _; rfl
  | cons pt D ih =>
    intro s hs
    rw [List.foldl_cons]
    have h1 : (⟨replaceList pt.1.data pt.2.data s.data⟩ : String) = s := by
      apply String.ext
      show replaceList pt.1.data pt.2.data s.data = s.data
      rw [hs, replaceList_nil]
    rw [h1]
    exact ih s hs

theorem fold_replace_ne_nil (D : List (String × String)) :
    ∀ s : String, (∀ pt ∈ D, pt.2.data ≠ []) → s.data ≠ [] →
      (D.foldl (fun r pt => (⟨replaceList pt.1.data pt.2.data r.data⟩ : String)) s).data ≠ [] := by
  induction D with
  | nil => intro s _ hs; exact hs
  | cons pt D ih =>
    intro s hD hs
    rw [List.foldl_cons]
    exact ih _ (fun qt hq => hD qt (List.mem_cons_of_mem pt hq))
      (replaceList_ne_nil pt.1.data pt.2.data s.data
        (hD pt (List.mem_cons_self pt D)) hs)

theorem dict_fold_inv :
    ∀ (D : List (String × String)) (s : String),
      (∀ pt ∈ D, pt.1.data ≠ []) →
      (∀ pt ∈ D, pt.2.data.length = 1) →
      (D.map (fun pt => pt.2)).Nodup →
      (∀ pt ∈ D, ∀ qt ∈ D, ∀ ch ∈ pt.2.data, ch ∉ qt.1.data) →
      (∀ pt ∈ D, ∀ ch ∈ pt.2.data, ch ∉ s.data) →
      D.reverse.foldl (fun r pt => (⟨replaceList pt.2.data pt.1.data r.data⟩ : String))
        (D.foldl (fun r pt => (⟨replaceList pt.1.data pt.2.data r.data⟩ : String)) s) = s := by
  intro D
  induction D with
  | nil => intro s _ _ _ _ _; rfl
  | cons pt D ih =>
    intro s hpat htok hnodup htp hs
    obtain ⟨c, hc⟩ := List.length_eq_one.mp (htok pt (List.mem_cons_self pt D))
    rw [List.foldl_cons, List.reverse_cons, List.foldl_append]
    set s1 : String := ⟨replaceList pt.1.data pt.2.data s.data⟩ with hs1
    have hs' : ∀ qt ∈ D, ∀ ch ∈ qt.2.data, ch ∉ s1.data := by
      intro qt hq ch hch
      obtain ⟨c', hc'⟩ := List.length_eq_one.mp (htok qt (List.mem_cons_of_mem pt hq))
      have hchc' : ch = c' := by
        rw [hc'] at hch
        simpa using hch
      have hne : ch ≠ c := by
        intro h
        have hq2 : qt.2 = pt.2 := by
          apply String.ext
          rw [hc', hc, ← hchc', h]
        have hmem : pt.2 ∈ D.map (fun qt => qt.2) := by
          rw [← hq2]
          exact List.mem_map_of_mem _ hq
        rw [List.map_cons] at hnodup
        exact (List.nodup_cons.mp hnodup).1 hmem
      rw [hs1]
      refine not_mem_replaceList pt.1.data pt.2.data s.data ch
        (hs qt (List.mem_cons_of_mem pt hq) ch hch) ?_
      rw [hc]
      simpa using hne
    have hmid := ih s1 (fun qt hq => hpat qt (List.mem_cons_of_mem pt hq))
      (fun qt hq => htok qt (List.mem_cons_of_mem pt hq))
      (by rw [List.map_cons] at hnodup; exact (List.nodup_cons.mp hnodup).2)
      (fun qt hq rt hr => htp qt (List.mem_cons_of_mem pt hq) rt (List.mem_cons_of_mem pt hr))
      hs'
    rw [hmid]
    rw [List.foldl_cons, List.foldl_nil]
    apply String.ext
    show replaceList pt.2.data pt.1.data (replaceList pt.1.data pt.2.data s.data) = s.data
    rw [hc]
    exact replace_single_inv pt.1.data c s.data
      (hpat pt (List.mem_cons_self pt D))
      (htp pt (List.mem_cons_self pt D) pt (List.mem_cons_self pt D) c (by rw [hc]; simp))
      (hs pt (List.mem_cons_self pt D) c (by rw [hc]; simp))

theorem reverseDictionary_applyDictionary (s : String) (hs : dictTokenFree s) :
    reverseDictionary (applyDictionary s) = s := by
  refine dict_fold_inv DICTIONARY s ?_ ?_ ?_ ?_ hs
  · decide
  · decide
  · decide
  · decide

theorem applyDictionary_empty : applyDictionary "" = "" :=
  fold_replace_nil DICTIONARY "" rfl

theorem applyDictionary_ne_empty (s : String) (hs : s.data ≠ []) :
    (applyDictionary s).data ≠ [] :=
  fold_replace_ne_nil DICTIONARY s (by decide) hs

/-! ## Lines: splitting, joining, trimming -/

theorem splitNl_cons_nl (rest : List Char) : splitNl ('\n' :: rest) = [] :: splitNl rest := by
  simp [splitNl]

theorem splitNl_cons (c : Char) (rest : List Char) (hc : c ≠ '\n') :
    splitNl (c :: rest) = (c :: (splitNl rest).headD []) :: (splitNl rest).tail := by
  simp [splitNl, hc]

theorem splitNl_ne_nil : ∀ s : List Char, splitNl s ≠ [] := by
  intro s
  cases s with
  | nil => simp [splitNl]
  | cons c rest =>
    by_cases hc : c = '\n'
    · subst hc; rw [splitNl_cons_nl]; simp
    · rw [splitNl_cons c rest hc]; simp

theorem splitNl_dest (s : List Char) : ∃ h t, splitNl s = h :: t := by
  cases hsp : splitNl s with
  | nil => exact absurd hsp (splitNl_ne_nil s)
  | cons h t => exact ⟨h, t, rfl⟩

theorem joinNl_cons_cons (l h : List Char) (t : List (List Char)) :
    joinNl (l :: h :: t) = l ++ '\n' :: joinNl (h :: t) := rfl

theorem joinNl_splitNl : ∀ s : List Char, joinNl (splitNl s) = s := by
  intro s
  induction s with
  | nil => rfl
  | cons c rest ih =>
    obtain ⟨h, t, ht⟩ := splitNl_dest rest
    by_cases hc : c = '\n'
    · subst hc
      rw [splitNl_cons_nl, ht, joinNl_cons_cons, ← ht, ih]
      rfl
    · rw [splitNl_cons c rest hc, ht]
      simp only [List.headD_cons, List.tail_cons]
      cases t with
      | nil =>
        show c :: h = c :: rest
        rw [ht] at ih
        simpa using ih
      | cons t0 ts =>
        rw [joinNl_cons_cons]
        rw [ht] at ih
        rw [joinNl_cons_cons] at ih
        simpa using ih

theorem splitNl_no_nl : ∀ s : List Char, ∀ l ∈ splitNl s, '\n' ∉ l := by
  intro s
  induction s with
  | nil => intro l hl; simp [splitNl] at hl; simp [hl]
  | cons c rest ih =>
    intro l hl
    by_cases hc : c = '\n'
    · subst hc
      rw [splitNl_cons_nl] at hl
      rcases List.mem_cons.mp hl with rfl | h
      · simp
      · exact ih l h
    · rw [splitNl_cons c rest hc] at hl
      obtain ⟨h, t, ht⟩ := splitNl_dest rest
      rw [ht] at hl
      simp only [List.headD_cons, List.tail_cons] at hl
      rcases List.mem_cons.mp hl with rfl | hmem
      · intro hnl
        rcases List.mem_cons.mp hnl with h' | h'
        · exact hc h'.symm
        · exact ih h (ht ▸ List.mem_cons_self h t) h'
      · exact ih l (ht ▸ List.mem_cons_of_mem h hmem)

theorem splitNl_chars : ∀ s : List Char, ∀ l ∈ splitNl s, ∀ a ∈ l, a ∈ s := by
  intro s
  induction s with
  | nil => intro l hl a ha; simp [splitNl] at hl; simp [hl] at ha
  | cons c rest ih =>
    intro l hl a ha
    by_cases hc : c = '\n'
    · subst hc
      rw [splitNl_cons_nl] at hl
      rcases List.mem_cons.mp hl with rfl | h
      · simp at ha
      · exact List.mem_cons_of_mem _ (ih l h a ha)
    · rw [splitNl_cons c rest hc] at hl
      obtain ⟨h, t, ht⟩ := splitNl_dest rest
      rw [ht] at hl
      simp only [List.headD_cons, List.tail_cons] at hl
      rcases List.mem_cons.mp hl with rfl | hmem
      · rcases List.mem_cons.mp ha with rfl | ha'
        · exact List.mem_cons_self a rest
        · exact List.mem_cons_of_mem _ (ih h (ht ▸ List.mem_cons_self h t) a ha')
      · exact List.mem_cons_of_mem _ (ih l (ht ▸ List.mem_cons_of_mem h hmem) a ha)

theorem trimEndList_subset (l : List Char) : trimEndList l ⊆ l := by
  intro a ha
  rw [trimEndList] at ha
  have : a ∈ l.reverse.dropWhile isJsWhitespace := by simpa using ha
  have := (List.dropWhile_sublist (l := l.reverse) isJsWhitespace).subset this
  simpa using this

theorem head?_append_left (l1 l2 : List Char) (h : l1 ≠ []) :
    (l1 ++ l2).head? = l1.head? := by
  cases l1 with
  | nil => exact absurd rfl h
  | cons a r => rfl

theorem dropWhile_eq_self (p : Char → Bool) (l : List Char)
    (h : ∀ a, l.head? = some a → p a = false) : l.dropWhile p = l := by
  cases l with
  | nil => rfl
  | cons a r =>
    rw [List.dropWhile_cons, if_neg]
    simp [h a rfl]

theorem head_dropWhile_not_ws (p : Char → Bool) (l : List Char) :
    ∀ a, (l.dropWhile p).head? = some a → p a = false := by
  intro a h
  have := List.head?_dropWhile_not p l
  simp [h] at this
  exact this

theorem trimEndList_eq_self (l : List Char)
    (h : ∀ a, l.getLast? = some a → isJsWhitespace a = false) : trimEndList l = l := by
  rw [trimEndList, dropWhile_eq_self]
  · simp
  · intro a ha
    apply h
    rw [List.head?_reverse] at ha
    exact ha

theorem trimEndList_append_dropped (l : List Char) :
    trimEndList l ++ (l.reverse.takeWhile isJsWhitespace).reverse = l := by
  rw [trimEndList]
  rw [← List.reverse_append, List.takeWhile_append_dropWhile, List.reverse_reverse]

theorem trimEndList_getLast_not_ws (l : List Char) :
    ∀ a, (trimEndList l).getLast? = some a → isJsWhitespace a = false := by
  intro a ha
  rw [trimEndList, List.getLast?_reverse] at ha
  exact head_dropWhile_not_ws isJsWhitespace l.reverse a ha

theorem trimEndList_idem (l : List Char) : trimEndList (trimEndList l) = trimEndList l :=
  trimEndList_eq_self _ (trimEndList_getLast_not_ws l)

theorem trimList_head_not_ws (l : List Char) :
    ∀ a, (trimList l).head? = some a → isJsWhitespace a = false := by
  intro a ha
  rw [trimList] at ha
  by_cases hne : trimEndList (l.dropWhile isJsWhitespace) = []
  · rw [hne] at ha; simp at ha
  · have hd : (trimEndList (l.dropWhile isJsWhitespace)).head? =
        (l.dropWhile isJsWhitespace).head? := by
      conv_rhs => rw [← trimEndList_append_dropped (l.dropWhile isJsWhitespace)]
      rw [head?_append_left _ _ hne]
    rw [hd] at ha
    exact head_dropWhile_not_ws isJsWhitespace l a ha

theorem trimList_getLast_not_ws (l : List Char) :
    ∀ a, (trimList l).getLast? = some a → isJsWhitespace a = false := by
  intro a ha
  rw [trimList] at ha
  exact trimEndList_getLast_not_ws _ a ha

theorem trimList_eq_self (l : List Char)
    (hh : ∀ a, l.head? = some a → isJsWhitespace a = false)
    (hl : ∀ a, l.getLast? = some a → isJsWhitespace a = false) : trimList l = l := by
  rw [trimList, dropWhile_eq_self _ _ hh, trimEndList_eq_self _ hl]

theorem trimList_idem (l : List Char) : trimList (trimList l) = trimList l :=
  trimList_eq_self _ (trimList_head_not_ws l) (trimList_getLast_not_ws l)

theorem trimList_middle (l : List Char) :
    ∃ u v, l = u ++ trimList l ++ v := by
  refine ⟨l.takeWhile isJsWhitespace,
    ((l.dropWhile isJsWhitespace).reverse.takeWhile isJsWhitespace).reverse, ?_⟩
  rw [trimList, List.append_assoc, trimEndList_append_dropped,
    List.takeWhile_append_dropWhile]

/-! ## Shape of normalised text: whitespace-newline adjacency -/

theorem mem_of_getLast?_char : ∀ (l : List Char) (a : Char), l.getLast? = some a → a ∈ l
  | [], a, h => by simp at h
  | [b], a, h => by
    simp at h
    simp [h]
  | b :: c :: r, a, h => by
    rw [List.getLast?_cons_cons] at h
    exact List.mem_cons_of_mem b (mem_of_getLast?_char (c :: r) a h)

theorem wsNlOk_cons_cons (a b : Char) (l : List Char) :
    wsNlOk (a :: b :: l) = (!badPair a b && wsNlOk (b :: l)) := rfl

theorem wsNlOk_tail (a : Char) (l : List Char) (h : wsNlOk (a :: l) = true) :
    wsNlOk l = true := by
  cases l with
  | nil => rfl
  | cons b r =>
    rw [wsNlOk_cons_cons, Bool.and_eq_true] at h
    exact h.2

theorem wsNlOk_append_right (l1 l2 : List Char) (h : wsNlOk (l1 ++ l2) = true) :
    wsNlOk l2 = true := by
  induction l1 with
  | nil => exact h
  | cons a r ih => exact ih (wsNlOk_tail a _ h)

theorem wsNlOk_append_left : ∀ l1 l2 : List Char, wsNlOk (l1 ++ l2) = true →
    wsNlOk l1 = true
  | [], _, _ => rfl
  | [a], _, _ => rfl
  | a :: b :: r, l2, h => by
    rw [List.cons_append, List.cons_append] at h
    rw [wsNlOk_cons_cons, Bool.and_eq_true] at h ⊢
    exact ⟨h.1, wsNlOk_append_left (b :: r) l2 h.2⟩

theorem wsNlOk_append : ∀ l1 l2 : List Char, wsNlOk l1 = true → wsNlOk l2 = true →
    (∀ a b, l1.getLast? = some a → l2.head? = some b → badPair a b = false) →
    wsNlOk (l1 ++ l2) = true
  | [], l2, _, h2, _ => h2
  | [a], l2, _, h2, hseam => by
    cases l2 with
    | nil => rfl
    | cons b t =>
      show wsNlOk (a :: b :: t) = true
      rw [wsNlOk_cons_cons, Bool.and_eq_true]
      exact ⟨by simp [hseam a b rfl rfl], h2⟩
  | a :: b :: rr, l2, h1, h2, hseam => by
    rw [List.cons_append, List.cons_append]
    rw [wsNlOk_cons_cons, Bool.and_eq_true]
    rw [wsNlOk_cons_cons, Bool.and_eq_true] at h1
    refine ⟨h1.1, ?_⟩
    rw [← List.cons_append]
    refine wsNlOk_append (b :: rr) l2 h1.2 h2 ?_
    intro x y hx hy
    exact hseam x y (by rw [List.getLast?_cons_cons]; exact hx) hy

theorem wsNlOk_all_nl : ∀ l : List Char, (∀ a ∈ l, a = '\n') → wsNlOk l = true
  | [], _ => rfl
  | [a], _ => rfl
  | a :: b :: r, h => by
    rw [wsNlOk_cons_cons, Bool.and_eq_true]
    refine ⟨?_, wsNlOk_all_nl (b :: r) (fun x hx => h x (List.mem_cons_of_mem a hx))⟩
    have ha : a = '\n' := h a (List.mem_cons_self a _)
    simp [badPair, ha]

theorem mem_nlRun (k : Nat) (a : Char) (ha : a ∈ nlRun k) : a = '\n' := by
  rw [nlRun] at ha
  split at ha
  · simpa using (by simpa using ha : a = '\n' ∨ a = '\n')
  · exact List.eq_of_mem_replicate ha

theorem wsNlOk_nlRun (k : Nat) : wsNlOk (nlRun k) = true :=
  wsNlOk_all_nl _ (fun a ha => mem_nlRun k a ha)

theorem wsNlOk_line : ∀ l : List Char, '\n' ∉ l → wsNlOk l = true
  | [], _ => rfl
  | [a], _ => rfl
  | a :: b :: r, h => by
    rw [wsNlOk_cons_cons, Bool.and_eq_true]
    refine ⟨?_, wsNlOk_line (b :: r) (fun hb => h (List.mem_cons_of_mem a hb))⟩
    have hb : ¬(b = '\n') := fun e => h (by simp [e])
    simp [badPair, hb]

theorem wsNlOk_joinNl : ∀ ls : List (List Char),
    (∀ l ∈ ls, '\n' ∉ l ∧ trimEndList l = l) → wsNlOk (joinNl ls) = true
  | [], _ => rfl
  | [l], h => wsNlOk_line l (h l (by simp)).1
  | l :: l2 :: t, h => by
    rw [joinNl_cons_cons]
    apply wsNlOk_append
    · exact wsNlOk_line l (h l (by simp)).1
    · have hrec := wsNlOk_joinNl (l2 :: t) (fun x hx => h x (List.mem_cons_of_mem l hx))
      cases hj : joinNl (l2 :: t) with
      | nil => rfl
      | cons x xs =>
        rw [wsNlOk_cons_cons, Bool.and_eq_true]
        refine ⟨by simp [badPair], ?_⟩
        rw [hj] at hrec
        exact hrec
    · intro a b ha hb
      have hb' : b = '\n' := by
        simp only [List.head?_cons, Option.some.injEq] at hb
        exact hb.symm
      have hfix := (h l (by simp)).2
      have hws : isJsWhitespace a = false := by
        apply trimEndList_getLast_not_ws l
        rw [hfix]
        exact ha
      simp [badPair, hws]

/-! ## Properties of newline collapsing -/

theorem collapseGo_nil (k : Nat) : collapseGo k [] = nlRun k := rfl

theorem collapseGo_cons (k : Nat) (c : Char) (rest : List Char) :
    collapseGo k (c :: rest) =
      if c = '\n' then collapseGo (k + 1) rest else nlRun k ++ c :: collapseGo 0 rest := rfl

theorem nlRun_head (k : Nat) (hk : 1 ≤ k) : ∃ t, nlRun k = '\n' :: t := by
  rw [nlRun]
  split
  · exact ⟨['\n'], rfl⟩
  · cases k with
    | zero => omega
    | succ m => exact ⟨List.replicate m '\n', by rw [List.replicate_succ]⟩

theorem collapseGo_head : ∀ (s : List Char) (k : Nat), 1 ≤ k →
    ∃ t, collapseGo k s = '\n' :: t
  | [], k, hk => by rw [collapseGo_nil]; exact nlRun_head k hk
  | c :: rest, k, hk => by
    rw [collapseGo_cons]
    by_cases hc : c = '\n'
    · rw [if_pos hc]
      exact collapseGo_head rest (k + 1) (by omega)
    · rw [if_neg hc]
      obtain ⟨t, ht⟩ := nlRun_head k hk
      exact ⟨t ++ c :: collapseGo 0 rest, by rw [ht]; rfl⟩

theorem collapseGo_zero_cons_ne (c : Char) (rest : List Char) (hc : ¬(c = '\n')) :
    collapseGo 0 (c :: rest) = c :: collapseGo 0 rest := by
  rw [collapseGo_cons, if_neg hc]
  rfl

theorem wsNlOk_collapseGo : ∀ s : List Char, wsNlOk s = true →
    ∀ k : Nat, wsNlOk (collapseGo k s) = true
  | [], _, k => by rw [collapseGo_nil]; exact wsNlOk_nlRun k
  | c :: rest, h, k => by
    rw [collapseGo_cons]
    by_cases hc : c = '\n'
    · rw [if_pos hc]
      exact wsNlOk_collapseGo rest (wsNlOk_tail c rest h) (k + 1)
    · rw [if_neg hc]
      apply wsNlOk_append
      · exact wsNlOk_nlRun k
      · have hrec := wsNlOk_collapseGo rest (wsNlOk_tail c rest h) 0
        cases rest with
        | nil =>
          rfl
        | cons d ds =>
          by_cases hd : d = '\n'
          · subst hd
            have h01 : collapseGo 0 ('\n' :: ds) = collapseGo 1 ds := by
              rw [collapseGo_cons, if_pos rfl]
            obtain ⟨t, ht⟩ := collapseGo_head ds 1 (by omega)
            rw [h01, ht]
            rw [wsNlOk_cons_cons, Bool.and_eq_true]
            constructor
            · rw [wsNlOk_cons_cons, Bool.and_eq_true] at h
              exact h.1
            · rw [h01, ht] at hrec
              exact hrec
          · rw [collapseGo_zero_cons_ne d ds hd]
            rw [wsNlOk_cons_cons, Bool.and_eq_true]
            constructor
            · simp [badPair, hd]
            · rw [collapseGo_zero_cons_ne d ds hd] at hrec
              exact hrec
      · intro a b ha _
        have ha' : a = '\n' := mem_nlRun k a (mem_of_getLast?_char _ a ha)
        simp [badPair, ha']

theorem noTriple_cons_cons_cons (a b c : Char) (l : List Char) :
    noTriple (a :: b :: c :: l) =
      (!(a = '\n' && b = '\n' && c = '\n') && noTriple (b :: c :: l)) := rfl

theorem noTriple_tail (a : Char) (l : List Char) (h : noTriple (a :: l) = true) :
    noTriple l = true := by
  cases l with
  | nil => rfl
  | cons b r =>
    cases r with
    | nil => rfl
    | cons c rr =>
      rw [noTriple_cons_cons_cons, Bool.and_eq_true] at h
      exact h.2

theorem noTriple_append_right (l1 l2 : List Char) (h : noTriple (l1 ++ l2) = true) :
    noTriple l2 = true := by
  induction l1 with
  | nil => exact h
  | cons a r ih => exact ih (noTriple_tail a _ h)

theorem noTriple_cons_ne (c : Char) (t : List Char) (hc : ¬(c = '\n'))
    (h : noTriple t = true) : noTriple (c :: t) = true := by
  cases t with
  | nil => rfl
  | cons b r =>
    cases r with
    | nil => rfl
    | cons d rr =>
      rw [noTriple_cons_cons_cons, Bool.and_eq_true]
      exact ⟨by simp [hc], h⟩

theorem noTriple_nl_cons_ne (c : Char) (t : List Char) (hc : ¬(c = '\n'))
    (h : noTriple (c :: t) = true) : noTriple ('\n' :: c :: t) = true := by
  cases t with
  | nil => rfl
  | cons d r =>
    rw [noTriple_cons_cons_cons, Bool.and_eq_true]
    exact ⟨by simp [hc], h⟩

theorem noTriple_nlRun_append (k : Nat) (c : Char) (t : List Char) (hc : ¬(c = '\n'))
    (ht : noTriple t = true) : noTriple (nlRun k ++ c :: t) = true := by
  have hct : noTriple (c :: t) = true := noTriple_cons_ne c t hc ht
  rw [nlRun]
  split
  · show noTriple ('\n' :: '\n' :: c :: t) = true
    rw [noTriple_cons_cons_cons, Bool.and_eq_true]
    exact ⟨by simp [hc], noTriple_nl_cons_ne c t hc hct⟩
  · rename_i hk
    have h2 : k = 0 ∨ k = 1 ∨ k = 2 := by omega
    rcases h2 with rfl | rfl | rfl
    · simpa using hct
    · show noTriple ('\n' :: c :: t) = true
      exact noTriple_nl_cons_ne c t hc hct
    · show noTriple ('\n' :: '\n' :: c :: t) = true
      rw [noTriple_cons_cons_cons, Bool.and_eq_true]
      exact ⟨by simp [hc], noTriple_nl_cons_ne c t hc hct⟩

theorem noTriple_short (l : List Char) (h : l.length ≤ 2) : noTriple l = true := by
  cases l with
  | nil => rfl
  | cons a r =>
    cases r with
    | nil => rfl
    | cons b rr =>
      cases rr with
      | nil => rfl
      | cons c rrr => simp at h

theorem noTriple_collapseGo : ∀ (s : List Char) (k : Nat), noTriple (collapseGo k s) = true
  | [], k => by
    rw [collapseGo_nil]
    apply noTriple_short
    rw [nlRun]
    split
    · simp
    · simpa using (by omega : k ≤ 2)
  | c :: rest, k => by
    rw [collapseGo_cons]
    by_cases hc : c = '\n'
    · rw [if_pos hc]
      exact noTriple_collapseGo rest (k + 1)
    · rw [if_neg hc]
      exact noTriple_nlRun_append k c _ hc (noTriple_collapseGo rest 0)

theorem replicate_nl_append_cons (k : Nat) (l : List Char) :
    List.replicate k '\n' ++ '\n' :: l = List.replicate (k + 1) '\n' ++ l := by
  rw [List.replicate_succ' k '\n', List.append_assoc]
  rfl

theorem noTriple_replicate_big (k : Nat) (hk : 3 ≤ k) (l : List Char) :
    noTriple (List.replicate k '\n' ++ l) = false := by
  obtain ⟨m, rfl⟩ : ∃ m, k = m + 3 := ⟨k - 3, by omega⟩
  rw [show m + 3 = (m + 2) + 1 from rfl, List.replicate_succ '\n' (m + 2),
    show m + 2 = (m + 1) + 1 from rfl, List.replicate_succ '\n' (m + 1),
    List.replicate_succ '\n' m]
  rw [List.cons_append, List.cons_append, List.cons_append,
    noTriple_cons_cons_cons]
  simp

theorem collapseGo_id : ∀ (s : List Char) (k : Nat),
    noTriple (List.replicate k '\n' ++ s) = true →
    collapseGo k s = List.replicate k '\n' ++ s
  | [], k, h => by
    have hk : k ≤ 2 := by
      by_contra hgt
      rw [noTriple_replicate_big k (by omega) []] at h
      simp at h
    rw [collapseGo_nil, nlRun, if_neg (by omega), List.append_nil]
  | c :: rest, k, h => by
    rw [collapseGo_cons]
    by_cases hc : c = '\n'
    · rw [if_pos hc]
      subst hc
      rw [collapseGo_id rest (k + 1) (by rw [← replicate_nl_append_cons]; exact h)]
      rw [replicate_nl_append_cons]
    · rw [if_neg hc]
      have hk : k ≤ 2 := by
        by_contra hgt
        rw [noTriple_replicate_big k (by omega) (c :: rest)] at h
        simp at h
      have ht : noTriple rest = true :=
        noTriple_tail c rest (noTriple_append_right _ _ h)
      rw [collapseGo_id rest 0 (by simpa using ht)]
      rw [nlRun, if_neg (by omega)]
      rfl

/-! ## Line-ending and trimming facts about normalised text -/

theorem crlfFree_tail (a : Char) (l : List Char) (h : crlfFree (a :: l) = true) :
    crlfFree l = true := by
  cases l with
  | nil => rfl
  | cons b r =>
    simp only [crlfFree, Bool.and_eq_true] at h
    exact h.2

theorem crlfFree_of_wsNlOk : ∀ l : List Char, wsNlOk l = true → crlfFree l = true
  | [], _ => rfl
  | [a], _ => rfl
  | a :: b :: r, h => by
    rw [wsNlOk_cons_cons, Bool.and_eq_true] at h
    simp only [crlfFree, Bool.and_eq_true]
    refine ⟨?_, crlfFree_of_wsNlOk (b :: r) h.2⟩
    have := h.1
    by_cases ha : a = '\r'
    · subst ha
      by_cases hb : b = '\n'
      · subst hb
        simp [badPair, isJsWhitespace] at this
      · simp [hb]
    · simp [ha]

theorem replace_crlf_id : ∀ s : List Char, crlfFree s = true →
    replaceList ['\r', '\n'] ['\n'] s = s
  | [], _ => replaceList_nil _ _
  | c :: rest, h => by
    have hpre : isPre ['\r', '\n'] (c :: rest) = false := by
      cases rest with
      | nil => simp [isPre]
      | cons d ds =>
        simp only [isPre, Bool.and_eq_true, decide_eq_true_eq]
        by_cases hc : '\r' = c
        · subst hc
          by_cases hd : '\n' = d
          · subst hd
            simp only [crlfFree] at h
            simp at h
          · simp only [isPre]
            simp [hd]
        · simp [hc]
    rw [replaceList_neg _ _ c rest (by simp) hpre]
    rw [replace_crlf_id rest (crlfFree_tail c rest h)]

theorem noTriple_append_left : ∀ l1 l2 : List Char, noTriple (l1 ++ l2) = true →
    noTriple l1 = true
  | [], _, _ => rfl
  | [_], _, _ => rfl
  | [_, _], _, _ => rfl
  | a :: b :: c :: r, l2, h => by
    rw [List.cons_append, List.cons_append, List.cons_append] at h
    rw [noTriple_cons_cons_cons, Bool.and_eq_true] at h ⊢
    exact ⟨h.1, noTriple_append_left (b :: c :: r) l2 h.2⟩

theorem wsNlOk_infix (u m v : List Char) (h : wsNlOk (u ++ m ++ v) = true) :
    wsNlOk m = true :=
  wsNlOk_append_left m v (wsNlOk_append_right u (m ++ v) (by rwa [← List.append_assoc]))

theorem noTriple_infix (u m v : List Char) (h : noTriple (u ++ m ++ v) = true) :
    noTriple m = true :=
  noTriple_append_left m v (noTriple_append_right u (m ++ v) (by rwa [← List.append_assoc]))

theorem linesTrimmed_cons (l : List Char) (ls : List (List Char)) :
    (l :: ls).all (fun x => decide (trimEndList x = x)) =
      (decide (trimEndList l = l) && ls.all (fun x => decide (trimEndList x = x))) := by
  rw [List.all_cons]

theorem splitNl_head_nil_forces_nl (d : Char) (ds : List Char) (t : List (List Char))
    (h : splitNl (d :: ds) = [] :: t) : d = '\n' := by
  by_contra hd
  rw [splitNl_cons d ds hd] at h
  simp at h

theorem linesTrimmed_of_wsNlOk : ∀ s : List Char, wsNlOk s = true →
    (∀ a, s.getLast? = some a → isJsWhitespace a = false) → linesTrimmed s = true
  | [], _, _ => by decide
  | c :: rest, h, hlast => by
    by_cases hc : c = '\n'
    · subst hc
      rw [linesTrimmed, splitNl_cons_nl, linesTrimmed_cons]
      rw [Bool.and_eq_true]
      constructor
      · decide
      · refine linesTrimmed_of_wsNlOk rest (wsNlOk_tail _ _ h) ?_
        intro a ha
        apply hlast
        cases rest with
        | nil => simp at ha
        | cons b r => rw [List.getLast?_cons_cons]; exact ha
    obtain ⟨hl, t, ht⟩ := splitNl_dest rest
    have hrest : linesTrimmed rest = true := by
      refine linesTrimmed_of_wsNlOk rest (wsNlOk_tail _ _ h) ?_
      intro a ha
      apply hlast
      cases rest with
      | nil => simp at ha
      | cons b r => rw [List.getLast?_cons_cons]; exact ha
    rw [linesTrimmed, ht] at hrest
    rw [linesTrimmed_cons, Bool.and_eq_true] at hrest
    have hh : trimEndList hl = hl := by
      have := hrest.1
      simpa using this
    rw [linesTrimmed, splitNl_cons c rest hc, ht]
    simp only [List.headD_cons, List.tail_cons]
    rw [linesTrimmed_cons, Bool.and_eq_true]
    refine ⟨?_, hrest.2⟩
    have hfix : trimEndList (c :: hl) = c :: hl := by
      cases hl with
      | nil =>
        apply trimEndList_eq_self
        intro a ha
        simp only [List.getLast?_singleton, Option.some.injEq] at ha
        subst ha
        cases rest with
        | nil =>
          exact hlast c rfl
        | cons d ds =>
          have hd : d = '\n' := splitNl_head_nil_forces_nl d ds t ht
          subst hd
          have hb : badPair c '\n' = false := by
            rw [wsNlOk_cons_cons, Bool.and_eq_true] at h
            simpa using h.1
          rw [badPair] at hb
          simpa [hc] using hb
      | cons x xs =>
        apply trimEndList_eq_self
        intro a ha
        rw [List.getLast?_cons_cons] at ha
        apply trimEndList_getLast_not_ws (x :: xs)
        rw [hh]
        exact ha
    simp [hfix]

/-! ## The shape of `normalizeCode`, and idempotence -/

theorem normalize_shape (code : String) :
    wsNlOk (normalizeCode code).data = true ∧
    noTriple (normalizeCode code).data = true ∧
    trimList (normalizeCode code).data = (normalizeCode code).data ∧
    crlfFree (normalizeCode code).data = true ∧
    linesTrimmed (normalizeCode code).data = true := by
  have hlines : ∀ l ∈ (splitNl (replaceList ['\r', '\n'] ['\n'] code.data)).map trimEndList,
      '\n' ∉ l ∧ trimEndList l = l := by
    intro l hl
    obtain ⟨l0, hl0, rfl⟩ := List.mem_map.mp hl
    constructor
    · intro hnl
      exact splitNl_no_nl _ l0 hl0 (trimEndList_subset l0 hnl)
    · exact trimEndList_idem l0
  set s2 : List Char :=
    joinNl ((splitNl (replaceList ['\r', '\n'] ['\n'] code.data)).map trimEndList) with hs2
  have h2 : wsNlOk s2 = true := wsNlOk_joinNl _ hlines
  have h3ws : wsNlOk (collapseGo 0 s2) = true := wsNlOk_collapseGo s2 h2 0
  have h3tr : noTriple (collapseGo 0 s2) = true := noTriple_collapseGo s2 0
  have hdata : (normalizeCode code).data = trimList (collapseGo 0 s2) := rfl
  obtain ⟨u, v, huv⟩ := trimList_middle (collapseGo 0 s2)
  have hws : wsNlOk (trimList (collapseGo 0 s2)) = true :=
    wsNlOk_infix u _ v (by rw [← huv]; exact h3ws)
  have htr : noTriple (trimList (collapseGo 0 s2)) = true :=
    noTriple_infix u _ v (by rw [← huv]; exact h3tr)
  refine ⟨by rw [hdata]; exact hws, by rw [hdata]; exact htr, ?_, ?_, ?_⟩
  · rw [hdata]
    exact trimList_idem (collapseGo 0 s2)
  · rw [hdata]
    exact crlfFree_of_wsNlOk _ hws
  · rw [hdata]
    exact linesTrimmed_of_wsNlOk _ hws (trimList_getLast_not_ws (collapseGo 0 s2))

theorem normalize_fixed (y : List Char)
    (h1 : wsNlOk y = true) (h2 : noTriple y = true) (h3 : trimList y = y)
    (h5 : linesTrimmed y = true) :
    trimList (collapseNewlines (joinNl ((splitNl (replaceList ['\r', '\n'] ['\n'] y)).map
      trimEndList))) = y := by
  rw [replace_crlf_id y (crlfFree_of_wsNlOk y h1)]
  have hmap : (splitNl y).map trimEndList = splitNl y := by
    have hall := List.all_eq_true.mp h5
    have : ∀ l ∈ splitNl y, trimEndList l = l := by
      intro l hl
      have := hall l hl
      simpa using this
    calc (splitNl y).map trimEndList = (splitNl y).map id := List.map_congr_left this
    _ = splitNl y := List.map_id _
  rw [hmap, joinNl_splitNl]
  show trimList (collapseGo 0 y) = y
  rw [collapseGo_id y 0 (by simpa using h2)]
  simpa using h3

theorem normalizeCode_data (code : String) :
    (normalizeCode code).data = trimList (collapseNewlines (joinNl
      ((splitNl (replaceList ['\r', '\n'] ['\n'] code.data)).map trimEndList))) := rfl

theorem normalizeCode_idem (c : String) :
    normalizeCode (normalizeCode c) = normalizeCode c := by
  obtain ⟨h1, h2, h3, _, h5⟩ := normalize_shape c
  apply String.ext
  rw [normalizeCode_data (normalizeCode c)]
  exact normalize_fixed _ h1 h2 h3 h5

/-! ## Base64: shape of the encoded token -/

theorem b64Char_mem (n : Nat) : b64Char n ∈ b64Table := by
  rw [b64Char]
  rcases h : b64Table.get? n with _ | x
  · rw [List.getD_eq_getD_get?, h]
    decide
  · rw [List.getD_eq_getD_get?, h]
    exact List.get?_mem h

theorem b64Char_ne_eq (n : Nat) : ¬(b64Char n = '=') := by
  intro h
  have := b64Char_mem n
  rw [h] at this
  revert this
  decide

theorem urlSwap_ne_eq (c : Char) (hc : ¬(c = '=')) : ¬(urlSwap c = '=') := by
  rw [urlSwap]
  by_cases h1 : c = '+'
  · simp [h1]
  · rw [if_neg h1]
    by_cases h2 : c = '/'
    · simp [h2]
    · rw [if_neg h2]
      exact hc

theorem toUrlSafeBase64_data (data : List Nat) :
    (toUrlSafeBase64 data).data = stripTrailingEq ((btoaBytes data).map urlSwap) := by
  show stripTrailingEq _ = _
  congr 1
  rw [List.map_map]
  apply List.map_congr_left
  intro c _
  simp only [Function.comp]
  rw [urlSwap]
  by_cases h1 : c = '+'
  · subst h1
    simp
  · rw [if_neg h1, if_neg h1]

theorem dropWhile_replicate_append (p : Char → Bool) (a : Char) (hp : p a = true) :
    ∀ (k : Nat) (l : List Char),
      (List.replicate k a ++ l).dropWhile p = l.dropWhile p := by
  intro k
  induction k with
  | zero => intro l; rfl
  | succ m ih =>
    intro l
    rw [List.replicate_succ a m, List.cons_append, List.dropWhile_cons, if_pos hp]
    exact ih l

theorem stripEq_append_eqs (x : List Char) (k : Nat)
    (hx : ∀ a, x.getLast? = some a → ¬(a = '=')) :
    stripTrailingEq (x ++ List.replicate k '=') = x := by
  rw [stripTrailingEq, List.reverse_append, List.reverse_replicate]
  rw [dropWhile_replicate_append _ '=' (by simp) k x.reverse]
  rw [dropWhile_eq_self]
  · exact List.reverse_reverse x
  · intro a ha
    rw [List.head?_reverse] at ha
    simp [hx a ha]

theorem getLast?_map_append_cons (f : Char → Char) (x : List Char) (c : Char) :
    ((x ++ [c]).map f).getLast? = some (f c) := by
  rw [List.map_append]
  simp

theorem urlTok_eq : ∀ data : List Nat,
    stripTrailingEq ((btoaBytes data).map urlSwap) =
      (enc6 data).map (fun v => urlSwap (b64Char v))
  | [] => rfl
  | [b0] => by
    show stripTrailingEq (([b64Char (b0 / 4), b64Char (b0 % 4 * 16)]
      ++ ['=', '=']).map urlSwap) = _
    rw [List.map_append]
    have heq : (['=', '='] : List Char).map urlSwap = List.replicate 2 '=' := by decide
    rw [heq, stripEq_append_eqs]
    · rfl
    · intro a ha
      simp only [List.map_cons, List.map_nil, List.getLast?_cons_cons,
        List.getLast?_singleton, Option.some.injEq] at ha
      rw [← ha]
      exact urlSwap_ne_eq _ (b64Char_ne_eq _)
  | [b0, b1] => by
    show stripTrailingEq (([b64Char (b0 / 4), b64Char (b0 % 4 * 16 + b1 / 16),
      b64Char (b1 % 16 * 4)] ++ ['=']).map urlSwap) = _
    rw [List.map_append]
    have heq : (['='] : List Char).map urlSwap = List.replicate 1 '=' := by decide
    rw [heq, stripEq_append_eqs]
    · rfl
    · intro a ha
      simp only [List.map_cons, List.map_nil, List.getLast?_cons_cons,
        List.getLast?_singleton, Option.some.injEq] at ha
      rw [← ha]
      exact urlSwap_ne_eq _ (b64Char_ne_eq _)
  | b0 :: b1 :: b2 :: rest => by
    show stripTrailingEq (([b64Char (b0 / 4), b64Char (b0 % 4 * 16 + b1 / 16),
      b64Char (b1 % 16 * 4 + b2 / 64), b64Char (b2 % 64)] ++ btoaBytes rest).map urlSwap) = _
    rw [List.map_append]
    have hx : ∀ a, (([b64Char (b0 / 4), b64Char (b0 % 4 * 16 + b1 / 16),
        b64Char (b1 % 16 * 4 + b2 / 64), b64Char (b2 % 64)]).map urlSwap).getLast? = some a →
        ¬(a = '=') := by
      intro a ha
      simp only [List.map_cons, List.map_nil, List.getLast?_cons_cons,
        List.getLast?_singleton, Option.some.injEq] at ha
      rw [← ha]
      exact urlSwap_ne_eq _ (b64Char_ne_eq _)
    have key : stripTrailingEq ((([b64Char (b0 / 4), b64Char (b0 % 4 * 16 + b1 / 16),
        b64Char (b1 % 16 * 4 + b2 / 64), b64Char (b2 % 64)]).map urlSwap)
        ++ (btoaBytes rest).map urlSwap) =
        (([b64Char (b0 / 4), b64Char (b0 % 4 * 16 + b1 / 16),
        b64Char (b1 % 16 * 4 + b2 / 64), b64Char (b2 % 64)]).map urlSwap)
        ++ stripTrailingEq ((btoaBytes rest).map urlSwap) := by
      rw [stripTrailingEq, List.reverse_append, List.dropWhile_append]
      split
      · rename_i hemp
        rw [List.isEmpty_iff] at hemp
        have hrev : stripTrailingEq ((btoaBytes rest).map urlSwap) = [] := by
          rw [stripTrailingEq, hemp]
          rfl
        rw [hrev, List.append_nil]
        rw [dropWhile_eq_self]
        · exact List.reverse_reverse _
        · intro a ha
          rw [List.head?_reverse] at ha
          simp [hx a ha]
      · rw [List.reverse_append, List.reverse_reverse]
        rfl
    rw [key, urlTok_eq rest]
    rfl

theorem toUrl_data_eq (data : List Nat) :
    (toUrlSafeBase64 data).data = (enc6 data).map (fun v => urlSwap (b64Char v)) := by
  rw [toUrlSafeBase64_data, urlTok_eq]

theorem enc6_ne_nil (data : List Nat) (h : data ≠ []) : enc6 data ≠ [] := by
  match data with
  | [] => exact absurd rfl h
  | [b0] => simp [enc6]
  | [b0, b1] => simp [enc6]
  | b0 :: b1 :: b2 :: rest => simp [enc6]

theorem toUrlSafeBase64_ne_empty (data : List Nat) (h : data ≠ []) :
    ¬(toUrlSafeBase64 data = "") := by
  intro he
  have hd : (toUrlSafeBase64 data).data = [] := by rw [he]
  rw [toUrl_data_eq] at hd
  exact enc6_ne_nil data h (by simpa using hd)

/-! ## Base64: round-trip through atob -/

theorem enc6_len_chunk (b0 b1 b2 : Nat) (rest : List Nat) :
    (enc6 (b0 :: b1 :: b2 :: rest)).length = (enc6 rest).length + 4 := by
  simp [enc6]

theorem enc6_mod4 : ∀ data : List Nat, (enc6 data).length % 4 = 0 ∨
    (enc6 data).length % 4 = 2 ∨ (enc6 data).length % 4 = 3
  | [] => Or.inl rfl
  | [_] => Or.inr (Or.inl rfl)
  | [_, _] => Or.inr (Or.inr rfl)
  | b0 :: b1 :: b2 :: rest => by
    rw [enc6_len_chunk]
    rcases enc6_mod4 rest with h | h | h <;> omega

theorem enc6_lt64 : ∀ data : List Nat, (∀ b ∈ data, b < 256) → ∀ v ∈ enc6 data, v < 64
  | [], _, v, hv => by simp [enc6] at hv
  | [b0], h, v, hv => by
    have hb0 : b0 < 256 := h b0 (by simp)
    simp only [enc6, List.mem_cons, List.not_mem_nil, or_false] at hv
    rcases hv with rfl | rfl <;> omega
  | [b0, b1], h, v, hv => by
    have hb0 : b0 < 256 := h b0 (by simp)
    have hb1 : b1 < 256 := h b1 (by simp)
    simp only [enc6, List.mem_cons, List.not_mem_nil, or_false] at hv
    rcases hv with rfl | rfl | rfl <;> omega
  | b0 :: b1 :: b2 :: rest, h, v, hv => by
    have hb0 : b0 < 256 := h b0 (by simp)
    have hb1 : b1 < 256 := h b1 (by simp)
    have hb2 : b2 < 256 := h b2 (by simp)
    simp only [enc6, List.mem_cons] at hv
    rcases hv with rfl | rfl | rfl | rfl | hv
    · omega
    · omega
    · omega
    · omega
    · exact enc6_lt64 rest (fun b hb => h b (by simp [hb])) v hv

theorem b64Quads_enc6 : ∀ data : List Nat, (∀ b ∈ data, b < 256) →
    b64Quads (enc6 data) = data
  | [], _ => rfl
  | [b0], h => by
    have hb0 : b0 < 256 := h b0 (by simp)
    show [b0 / 4 * 4 + b0 % 4 * 16 / 16] = [b0]
    congr 1
    omega
  | [b0, b1], h => by
    have hb0 : b0 < 256 := h b0 (by simp)
    have hb1 : b1 < 256 := h b1 (by simp)
    show [b0 / 4 * 4 + (b0 % 4 * 16 + b1 / 16) / 16,
      (b0 % 4 * 16 + b1 / 16) % 16 * 16 + b1 % 16 * 4 / 4] = [b0, b1]
    congr 1
    · omega
    · congr 1
      omega
  | b0 :: b1 :: b2 :: rest, h => by
    have hb0 : b0 < 256 := h b0 (by simp)
    have hb1 : b1 < 256 := h b1 (by simp)
    have hb2 : b2 < 256 := h b2 (by simp)
    show (b0 / 4 * 4 + (b0 % 4 * 16 + b1 / 16) / 16) ::
      ((b0 % 4 * 16 + b1 / 16) % 16 * 16 + (b1 % 16 * 4 + b2 / 64) / 4) ::
      ((b1 % 16 * 4 + b2 / 64) % 4 * 64 + b2 % 64) :: b64Quads (enc6 rest)
      = b0 :: b1 :: b2 :: rest
    rw [b64Quads_enc6 rest (fun b hb => h b (by simp [hb]))]
    congr 1
    · omega
    congr 1
    · omega
    congr 1
    omega

theorem b64Index_b64Char : ∀ v < 64, b64Index (b64Char v) = some v := by decide

theorem mapB64_map (vals : List Nat) (h : ∀ v ∈ vals, v < 64) :
    mapB64 (vals.map b64Char) = some vals := by
  induction vals with
  | nil => rfl
  | cons v vs ih =>
    rw [List.map_cons]
    simp only [mapB64]
    rw [b64Index_b64Char v (h v (by simp)), ih (fun x hx => h x (by simp [hx]))]

theorem table_not_b64ws : ∀ c ∈ b64Table, isB64Ws c = false := by decide

theorem stripEq12_two (M : List Char) : stripEq12 (M ++ ['=', '=']) = M := by
  unfold stripEq12
  rw [List.reverse_append]
  show (match '=' :: '=' :: M.reverse with
    | '=' :: '=' :: r => r.reverse
    | '=' :: r => r.reverse
    | _ => M ++ ['=', '=']) = M
  exact List.reverse_reverse M

theorem stripEq12_one (M : List Char) (hM : ∀ a, M.getLast? = some a → ¬(a = '='))
    (hne : M ≠ []) : stripEq12 (M ++ ['=']) = M := by
  obtain ⟨c, r, hrev⟩ : ∃ c r, M.reverse = c :: r := by
    cases hv : M.reverse with
    | nil =>
      exfalso
      apply hne
      have := congrArg List.reverse hv
      simpa using this
    | cons c r => exact ⟨c, r, rfl⟩
  have hc : ¬(c = '=') := by
    apply hM
    rw [← List.head?_reverse, hrev]
    rfl
  unfold stripEq12
  rw [List.reverse_append, hrev]
  show (match ('=' :: (c :: r) : List Char) with
    | '=' :: '=' :: r => r.reverse
    | '=' :: r => r.reverse
    | _ => M ++ ['=']) = M
  split
  · rename_i heq
    exfalso
    apply hc
    rw [List.cons.injEq, List.cons.injEq] at heq
    exact heq.2.1
  · rename_i heq
    rw [List.cons.injEq] at heq
    rw [← heq.2, ← hrev, List.reverse_reverse]
  · rename_i hno1 hno2
    exfalso
    exact hno2 (c :: r) rfl

theorem stripEq12_id (M : List Char) (hM : ∀ a, M.getLast? = some a → ¬(a = '=')) :
    stripEq12 M = M := by
  cases hv : M.reverse with
  | nil =>
    unfold stripEq12
    rw [hv]
  | cons c r =>
    have hc : ¬(c = '=') := by
      apply hM
      rw [← List.head?_reverse, hv]
      rfl
    unfold stripEq12
    rw [hv]
    split
    · rename_i heq
      exfalso
      apply hc
      rw [List.cons.injEq] at heq
      exact heq.1
    · rename_i heq
      exfalso
      apply hc
      rw [List.cons.injEq] at heq
      exact heq.1
    · rfl

theorem unswap_table : ∀ c ∈ b64Table,
    (fun c => if c = '_' then '/' else c) ((fun c => if c = '-' then '+' else c) (urlSwap c))
      = c := by decide

theorem getLast_map_b64Char_ne_eq (vals : List Nat) (a : Char)
    (ha : (vals.map b64Char).getLast? = some a) : ¬(a = '=') := by
  have hmem := mem_of_getLast?_char _ a ha
  obtain ⟨v, _, rfl⟩ := List.mem_map.mp hmem
  exact b64Char_ne_eq v

theorem atobBytes_eval (l : List Char)
    (hfilt : l.filter (fun c => !isB64Ws c) = l)
    (hlen : l.length % 4 = 0)
    (M : List Char) (hstrip : stripEq12 l = M)
    (hmod : ¬(M.length % 4 = 1))
    (vals : List Nat) (hmap : mapB64 M = some vals) :
    atobBytes l = some (b64Quads vals) := by
  rw [atobBytes]
  simp only [hfilt]
  rw [if_pos hlen, hstrip, if_neg hmod, hmap]

theorem fromUrl_toUrl (data : List Nat) (hb : ∀ b ∈ data, b < 256) :
    fromUrlSafeBase64 ((toUrlSafeBase64 data).data) = some data := by
  rw [toUrl_data_eq]
  have hback : ((((enc6 data).map (fun v => urlSwap (b64Char v))).map
        (fun c => if c = '-' then '+' else c)).map (fun c => if c = '_' then '/' else c))
      = (enc6 data).map b64Char := by
    rw [List.map_map, List.map_map]
    apply List.map_congr_left
    intro v _
    exact unswap_table (b64Char v) (b64Char_mem v)
  rw [fromUrlSafeBase64]
  simp only [hback]
  set M : List Char := (enc6 data).map b64Char with hM
  have hMlen : M.length = (enc6 data).length := List.length_map _ _
  have hfilt : (M ++ List.replicate ((4 - M.length % 4) % 4) '=').filter
      (fun c => !isB64Ws c) = M ++ List.replicate ((4 - M.length % 4) % 4) '=' := by
    rw [List.filter_eq_self]
    intro a ha
    rcases List.mem_append.mp ha with h | h
    · obtain ⟨v, _, rfl⟩ := List.mem_map.mp h
      simp [table_not_b64ws (b64Char v) (b64Char_mem v)]
    · rw [List.eq_of_mem_replicate h]
      decide
  have hstrip : stripEq12 (M ++ List.replicate ((4 - M.length % 4) % 4) '=') = M := by
    rcases enc6_mod4 data with h | h | h
    · have hk : (4 - M.length % 4) % 4 = 0 := by omega
      rw [hk]
      show stripEq12 (M ++ []) = M
      rw [List.append_nil]
      exact stripEq12_id M (getLast_map_b64Char_ne_eq _)
    · have hk : (4 - M.length % 4) % 4 = 2 := by omega
      rw [hk]
      show stripEq12 (M ++ ['=', '=']) = M
      exact stripEq12_two M
    · have hk : (4 - M.length % 4) % 4 = 1 := by omega
      rw [hk]
      show stripEq12 (M ++ ['=']) = M
      apply stripEq12_one M (getLast_map_b64Char_ne_eq _)
      intro hnil
      rw [hnil] at hMlen
      simp at hMlen
      omega
  have hlen0 : (M ++ List.replicate ((4 - M.length % 4) % 4) '=').length % 4 = 0 := by
    rw [List.length_append, List.length_replicate]
    omega
  have hmod1 : ¬(M.length % 4 = 1) := by
    rcases enc6_mod4 data with h | h | h <;> omega
  have hmap : mapB64 M = some (enc6 data) :=
    mapB64_map _ (enc6_lt64 data hb)
  rw [atobBytes_eval _ hfilt hlen0 M hstrip hmod1 _ hmap]
  rw [b64Quads_enc6 data hb]

/-! ## The decode–encode master lemma -/

theorem empty_string_data : ("" : String).data = [] := rfl

theorem encode_eq (C : Compressor) (code : String) (lang : Option String) :
    encode C code lang = toUrlSafeBase64 (C.compress (applyDictionary (payloadOf code lang))) :=
  rfl

theorem string_ne_empty_of_data (s : String) (h : s.data ≠ []) : ¬(s = "") := by
  intro he
  rw [he] at h
  exact h empty_string_data

theorem data_ne_nil_of_ne_empty (s : String) (h : ¬(s = "")) : s.data ≠ [] := by
  intro hd
  exact h (String.ext (by rw [hd, empty_string_data]))

theorem decode_encode_payload (C : Compressor) (P : String) (h : dictTokenFree P) :
    decode C (toUrlSafeBase64 (C.compress (applyDictionary P))) =
      if P = "" then none else some (splitLang P) := by
  by_cases hemp : P = ""
  · rw [if_pos hemp]
    subst hemp
    rw [applyDictionary_empty]
    by_cases hcz : C.compress "" = []
    · have henc : toUrlSafeBase64 (C.compress "") = "" := by
        rw [hcz]
        rfl
      rw [henc]
      rw [decode, if_pos rfl]
    · rw [decode, if_neg (toUrlSafeBase64_ne_empty _ hcz)]
      rw [fromUrl_toUrl _ (C.bounded _)]
      show (match C.decompress (C.compress "") with
        | none => none
        | some decompressed => if decompressed = "" then none
          else some (splitLang (reverseDictionary decompressed))) = none
      rw [C.roundtrip]
      rfl
  · rw [if_neg hemp]
    have hdict_ne : (applyDictionary P).data ≠ [] :=
      applyDictionary_ne_empty P (data_ne_nil_of_ne_empty P hemp)
    have hdict_ne' : ¬(applyDictionary P = "") := string_ne_empty_of_data _ hdict_ne
    have hcz : C.compress (applyDictionary P) ≠ [] := C.compress_ne _ hdict_ne'
    rw [decode, if_neg (toUrlSafeBase64_ne_empty _ hcz)]
    rw [fromUrl_toUrl _ (C.bounded _)]
    show (match C.decompress (C.compress (applyDictionary P)) with
      | none => none
      | some decompressed => if decompressed = "" then none
        else some (splitLang (reverseDictionary decompressed))) = _
    rw [C.roundtrip]
    show (if applyDictionary P = "" then none
      else some (splitLang (reverseDictionary (applyDictionary P)))) = _
    rw [if_neg hdict_ne', reverseDictionary_applyDictionary P h]

theorem decode_encode_master (C : Compressor) (code : String) (lang : Option String)
    (h : dictTokenFree (payloadOf code lang)) :
    decode C (encode C code lang) =
      if payloadOf code lang = "" then none
      else some (splitLang (payloadOf code lang)) := by
  rw [encode_eq]
  exact decode_encode_payload C (payloadOf code lang) h

/-! ## Characters of the normalised payload -/

theorem string_append_data (s t : String) : (s ++ t).data = s.data ++ t.data := by
  cases s
  cases t
  rfl

theorem trimList_subset (l : List Char) : trimList l ⊆ l := by
  intro a ha
  rw [trimList] at ha
  exact (List.dropWhile_sublist isJsWhitespace).subset (trimEndList_subset _ ha)

theorem mem_collapseGo : ∀ (s : List Char) (k : Nat) (a : Char),
    a ∈ collapseGo k s → a = '\n' ∨ a ∈ s
  | [], k, a, ha => by
    rw [collapseGo_nil] at ha
    exact Or.inl (mem_nlRun k a ha)
  | c :: rest, k, a, ha => by
    rw [collapseGo_cons] at ha
    by_cases hc : c = '\n'
    · rw [if_pos hc] at ha
      rcases mem_collapseGo rest (k + 1) a ha with h | h
      · exact Or.inl h
      · exact Or.inr (List.mem_cons_of_mem c h)
    · rw [if_neg hc] at ha
      rcases List.mem_append.mp ha with h | h
      · exact Or.inl (mem_nlRun k a h)
      · rcases List.mem_cons.mp h with rfl | h'
        · exact Or.inr (List.mem_cons_self a rest)
        · rcases mem_collapseGo rest 0 a h' with h'' | h''
          · exact Or.inl h''
          · exact Or.inr (List.mem_cons_of_mem c h'')

theorem mem_joinNl : ∀ (ls : List (List Char)) (a : Char),
    a ∈ joinNl ls → a = '\n' ∨ ∃ l ∈ ls, a ∈ l
  | [], a, ha => by simp [joinNl] at ha
  | [l], a, ha => Or.inr ⟨l, by simp, ha⟩
  | l :: l2 :: t, a, ha => by
    rw [joinNl_cons_cons] at ha
    rcases List.mem_append.mp ha with h | h
    · exact Or.inr ⟨l, by simp, h⟩
    · rcases List.mem_cons.mp h with rfl | h'
      · exact Or.inl rfl
      · rcases mem_joinNl (l2 :: t) a h' with h'' | ⟨x, hx, hax⟩
        · exact Or.inl h''
        · exact Or.inr ⟨x, List.mem_cons_of_mem l hx, hax⟩

theorem normalize_chars (code : String) (a : Char) (ha : a ∈ (normalizeCode code).data) :
    a ∈ code.data ∨ a = '\n' := by
  rw [normalizeCode_data] at ha
  have h1 := trimList_subset _ ha
  rcases mem_collapseGo _ 0 a h1 with h | h
  · exact Or.inr h
  rcases mem_joinNl _ a h with h' | ⟨l, hl, hal⟩
  · exact Or.inr h'
  obtain ⟨l0, hl0, rfl⟩ := List.mem_map.mp hl
  have h2 : a ∈ l0 := trimEndList_subset l0 hal
  have h3 : a ∈ replaceList ['\r', '\n'] ['\n'] code.data := splitNl_chars _ l0 hl0 a h2
  rcases mem_replaceList _ _ _ a h3 with h4 | h4
  · exact Or.inl h4
  · exact Or.inr (by simpa using h4)

theorem dict_tokens_not_code_chars : ∀ pt ∈ DICTIONARY, ∀ ch ∈ pt.2.data,
    (ch.isAlpha || ch.isDigit || decide (ch = '-') || decide (ch = '|')
      || decide (ch = '\n')) = false := by decide

theorem langValid_chars (l : String) (h : langValid l = true) :
    ∀ ch ∈ l.data, (ch.isAlpha || ch.isDigit || decide (ch = '-')) = true := by
  rw [langValid] at h
  cases hd : l.data with
  | nil => rw [hd] at h; simp at h
  | cons c rest =>
    rw [hd] at h
    simp only [Bool.and_eq_true] at h
    intro ch hch
    rcases List.mem_cons.mp hch with rfl | hm
    · simp [h.1.1]
    · have := List.all_eq_true.mp h.2 ch hm
      simpa using this

theorem dictTokenFree_payload (code : String) (lang : Option String)
    (hc : dictTokenFree code)
    (hl : ∀ l, lang = some l → langValid l = true) :
    dictTokenFree (payloadOf code lang) := by
  have hnorm : ∀ pt ∈ DICTIONARY, ∀ ch ∈ pt.2.data, ch ∉ (normalizeCode code).data := by
    intro pt hpt ch hch hmem
    rcases normalize_chars code ch hmem with h | h
    · exact hc pt hpt ch hch h
    · have := dict_tokens_not_code_chars pt hpt ch hch
      rw [h] at this
      simp at this
  intro pt hpt ch hch hmem
  match lang with
  | none => exact hnorm pt hpt ch hch hmem
  | some l =>
    rw [payloadOf] at hmem
    by_cases hle : l = ""
    · rw [if_pos hle] at hmem
      exact hnorm pt hpt ch hch hmem
    · rw [if_neg hle] at hmem
      have hdata : (l ++ "|" ++ normalizeCode code).data
          = l.data ++ '|' :: (normalizeCode code).data := by
        rw [string_append_data, string_append_data]
        rw [show ("|" : String).data = ['|'] from rfl, List.append_assoc]
        rfl
      rw [hdata] at hmem
      rcases List.mem_append.mp hmem with h | h
      · have hchars := langValid_chars l (hl l rfl) ch h
        have := dict_tokens_not_code_chars pt hpt ch hch
        rw [Bool.or_eq_false_iff, Bool.or_eq_false_iff, Bool.or_eq_false_iff,
          Bool.or_eq_false_iff] at this
        rw [Bool.or_eq_true, Bool.or_eq_true] at hchars
        rcases hchars with (h1 | h1) | h1
        · rw [h1] at this; simp at this
        · rw [h1] at this; simp at this
        · rw [h1] at this; simp at this
      · rcases List.mem_cons.mp h with rfl | h'
        · have := dict_tokens_not_code_chars pt hpt '|' hch
          simp at this
        · exact hnorm pt hpt ch hch h'

/-! ## The language split -/

theorem langValid_facts (l : String) (h : langValid l = true) :
    l.data ≠ [] ∧ '|' ∉ l.data ∧ l.data.length ≤ 19 ∧ langRegexTest l = true := by
  rw [langValid] at h
  cases hd : l.data with
  | nil => rw [hd] at h; simp at h
  | cons c rest =>
    rw [hd] at h
    simp only [Bool.and_eq_true] at h
    obtain ⟨⟨halpha, hlen⟩, hall⟩ := h
    refine ⟨by simp, ?_, ?_, ?_⟩
    · intro hmem
      rcases List.mem_cons.mp hmem with rfl | hm
      · revert halpha
        decide
      · have := List.all_eq_true.mp hall '|' hm
        revert this
        decide
    · have h18 : rest.length ≤ 18 := by simpa using hlen
      simp only [List.length_cons]
      omega
    · rw [langRegexTest, hd]
      simp [halpha, hall]

theorem firstPipeIdx_append (l r : List Char) (hl : '|' ∉ l) :
    firstPipeIdx (l ++ '|' :: r) = some l.length := by
  induction l with
  | nil => simp [firstPipeIdx]
  | cons c cs ih =>
    rw [List.cons_append, firstPipeIdx]
    rw [if_neg (fun e => hl (by simp [e]))]
    rw [ih (fun hm => hl (List.mem_cons_of_mem c hm))]
    rfl

theorem splitLang_prefixed (l N : String) (hv : langValid l = true) :
    splitLang (l ++ "|" ++ N) = ⟨N, some l⟩ := by
  obtain ⟨hne, hpipe, hlen, hre⟩ := langValid_facts l hv
  have hdata : (l ++ "|" ++ N).data = l.data ++ '|' :: N.data := by
    rw [string_append_data, string_append_data]
    rw [show ("|" : String).data = ['|'] from rfl, List.append_assoc]
    rfl
  have hlenpos : 0 < l.data.length := List.length_pos.mpr hne
  rw [splitLang, hdata, firstPipeIdx_append l.data N.data hpipe]
  show (if 0 < l.data.length ∧ l.data.length < 20 then
      if langRegexTest ⟨(l.data ++ '|' :: N.data).take l.data.length⟩ = true then
        ({ code := ⟨(l.data ++ '|' :: N.data).drop (l.data.length + 1)⟩,
           lang := some ⟨(l.data ++ '|' :: N.data).take l.data.length⟩ } : SnippetData)
      else { code := l ++ "|" ++ N, lang := none }
    else ({ code := l ++ "|" ++ N, lang := none } : SnippetData))
    = ({ code := N, lang := some l } : SnippetData)
  have htake : (l.data ++ '|' :: N.data).take l.data.length = l.data := by
    rw [List.take_left]
  have hdrop : (l.data ++ '|' :: N.data).drop (l.data.length + 1) = N.data := by
    have hsplit : l.data ++ '|' :: N.data = (l.data ++ ['|']) ++ N.data := by
      rw [List.append_assoc]
      rfl
    rw [hsplit]
    have hlen2 : (l.data ++ ['|']).length = l.data.length + 1 := by simp
    rw [← hlen2, List.drop_left]
  rw [if_pos ⟨hlenpos, by omega⟩, htake]
  have hl_eta : (⟨l.data⟩ : String) = l := rfl
  rw [hl_eta, if_pos hre, hdrop]

theorem splitLang_eq_spec (restored : String) : splitLang restored = specSplitLang restored := by
  rw [splitLang, specSplitLang]
  cases firstPipeIdx restored.data with
  | none => rfl
  | some i =>
    show (if 0 < i ∧ i < 20 then
        if langRegexTest ⟨restored.data.take i⟩ = true then
          ({ code := ⟨restored.data.drop (i + 1)⟩,
             lang := some ⟨restored.data.take i⟩ } : SnippetData)
        else { code := restored, lang := none }
      else ({ code := restored, lang := none } : SnippetData))
      = (if 1 ≤ i ∧ i ≤ 19 ∧ specLangPattern (restored.data.take i) = true then
          ({ code := ⟨restored.data.drop (i + 1)⟩,
             lang := some ⟨restored.data.take i⟩ } : SnippetData)
        else { code := restored, lang := none })
    by_cases h1 : 0 < i ∧ i < 20
    · by_cases h2 : langRegexTest ⟨restored.data.take i⟩ = true
      · rw [if_pos h1, if_pos h2]
        have hspec : specLangPattern (restored.data.take i) = true := h2
        rw [if_pos ⟨h1.1, by omega, hspec⟩]
      · rw [if_pos h1, if_neg (by simpa using h2)]
        rw [if_neg (fun hc => h2 hc.2.2)]
    · rw [if_neg h1, if_neg (fun hc => h1 ⟨by omega, by omega⟩)]

theorem decode_some_inv (C : Compressor) (hash : String) (p : SnippetData)
    (h : decode C hash = some p) :
    ∃ bytes d, fromUrlSafeBase64 hash.data = some bytes ∧ C.decompress bytes = some d ∧
      ¬(d = "") ∧ p = splitLang (reverseDictionary d) := by
  rw [decode] at h
  split at h
  · exact absurd h (by simp)
  · split at h
    · exact absurd h (by simp)
    · rename_i bytes hb
      split at h
      · exact absurd h (by simp)
      · rename_i d hd
        split at h
        · exact absurd h (by simp)
        · rename_i hde
          refine ⟨bytes, d, hb, hd, hde, ?_⟩
          have := Option.some.inj h
          rw [← this]

/-! ## URL binder helpers -/

theorem updateUrlHash_fst (C : Compressor) (st : BrowserState) (code : String)
    (lang : Option String) :
    (updateUrlHash C st code lang).1 =
      { length := (st.origin ++ st.pathname ++ "#" ++ encode C code lang).length,
        isWarning :=
          decide (URL_WARNING_LIMIT < (st.origin ++ st.pathname ++ "#" ++ encode C code lang).length)
            && decide ((st.origin ++ st.pathname ++ "#" ++ encode C code lang).length ≤ URL_ERROR_LIMIT),
        isError :=
          decide (URL_ERROR_LIMIT < (st.origin ++ st.pathname ++ "#" ++ encode C code lang).length) } := by
  rw [updateUrlHash]
  split <;> rfl

theorem urlswap_in_alphabet : ∀ c ∈ b64Table,
    base64UrlAlphabet.contains (urlSwap c) = true := by decide

/-! ## Claims -/

/-- C7: `normalize` is idempotent: for every string `c`,
`normalize(normalize(c)) == normalize(c)`. -/
theorem normalizeCode_idempotent :
    ∀ c : String, normalizeCode (normalizeCode c) = normalizeCode c :=
  normalizeCode_idem

/-- C9: for every code string and optional language, the token returned by
`encode` contains only characters of the base64url alphabet
(A-Z, a-z, 0-9, hyphen, underscore): no plus, slash, or padding. -/
theorem encode_token_urlsafe :
    ∀ (C : Compressor) (code : String) (lang : Option String),
      (encode C code lang).data.all (fun ch => base64UrlAlphabet.contains ch) = true := by
  intro C code lang
  rw [encode_eq]
  rw [toUrl_data_eq, List.all_eq_true]
  intro ch hch
  obtain ⟨v, _, rfl⟩ := List.mem_map.mp hch
  exact urlswap_in_alphabet (b64Char v) (b64Char_mem v)

/-- C8: `decode` splits off a language tag exactly when the first pipe of the
restored text sits at an index in `[1, 19]` and the prefix before it matches
the language pattern (a letter followed by letters, digits, or hyphens); in
every other case the whole restored text is the code with no language — a
silent fallback, never an error.  The first conjunct settles the split
condition against the spec's wording; the second shows every successful
`decode` result is exactly such a split of the restored text. -/
theorem lang_split_exact :
    (∀ restored : String, splitLang restored = specSplitLang restored) ∧
    (∀ (C : Compressor) (hash : String) (p : SnippetData), decode C hash = some p →
      ∃ bytes d, fromUrlSafeBase64 hash.data = some bytes ∧ C.decompress bytes = some d ∧
        ¬(d = "") ∧ p = splitLang (reverseDictionary d)) :=
  ⟨splitLang_eq_spec, decode_some_inv⟩

/-- C8 witness: the split agrees with the spec on a concrete text, and a
concrete successful decode is the split of its restored text. -/
theorem lang_split_exact_witness :
    splitLang "go|x" = specSplitLang "go|x" ∧
    ∃ bytes d, fromUrlSafeBase64 ("AABh" : String).data = some bytes ∧
      idComp.decompress bytes = some d ∧ ¬(d = "") ∧
      ({ code := "a", lang := none } : SnippetData) = splitLang (reverseDictionary d) :=
  ⟨lang_split_exact.1 "go|x",
    lang_split_exact.2 idComp "AABh" { code := "a", lang := none } (by decide)⟩

/-- C6 counterexample: a text with exactly two consecutive blank lines does
not keep both — `normalizeCode` collapses them to a single blank line
("a\n\n\nb" holds two blank lines between `a` and `b`, yet normalises to
"a\n\nb", one blank line). -/
theorem blank_line_pair_collapsed :
    normalizeCode "a\n\n\nb" = "a\n\nb" ∧ ¬(("a\n\nb" : String) = "a\n\n\nb") := by
  decide

/-- C6 amended: `normalize` converts line endings to a single convention (no
carriage return before a newline survives), strips trailing whitespace from
every line, trims the whole text, and collapses every run of two or more
consecutive blank lines (three or more newlines) to exactly one blank line;
a single blank line is kept. -/
theorem normalize_shape_amended :
    (∀ c : String,
      crlfFree (normalizeCode c).data = true ∧
      linesTrimmed (normalizeCode c).data = true ∧
      trimList (normalizeCode c).data = (normalizeCode c).data ∧
      noTriple (normalizeCode c).data = true) ∧
    normalizeCode "a\r\nb \n\n\n\n\nc\t\n" = "a\nb\n\nc" ∧
    normalizeCode "a\n\nb" = "a\n\nb" ∧
    normalizeCode "a\n\n\nb" = "a\n\nb" := by
  refine ⟨?_, by decide, by decide, by decide⟩
  intro c
  obtain ⟨h1, h2, h3, h4, h5⟩ := normalize_shape c
  exact ⟨h4, h5, h3, h2⟩

/-- C2 counterexample: the code body "a|b" encoded without a language does
NOT decode back to `lang` undefined and code "a|b": the decoder sees the
pipe, reads "a" as a language tag and returns code "b". -/
theorem pipe_body_misread :
    decode idComp (encode idComp "a|b" none) = some { code := "b", lang := some "a" } ∧
    ¬(({ code := "b", lang := some "a" } : SnippetData) = { code := "a|b", lang := none }) := by
  decide

/-- C2 amended: `decode(encode("print('x')"))` with no language returns
`{code: "print('x')"}` with no language, since the body holds no pipe; but a
body whose first pipe is at an index in `[1, 19]` behind a pattern-matching
prefix is re-interpreted on decode: "a|b" encoded without a language decodes
to `{lang: "a", code: "b"}` — the synthetic-prefix distinction is not
preserved. -/
theorem decode_encode_no_lang_amended :
    ∀ C : Compressor,
      decode C (encode C "print(\x27x\x27)" none)
        = some { code := "print(\x27x\x27)", lang := none } ∧
      decode C (encode C "a|b" none) = some { code := "b", lang := some "a" } := by
  intro C
  constructor
  · rw [decode_encode_master C "print(\x27x\x27)" none (by decide)]
    decide
  · rw [decode_encode_master C "a|b" none (by decide)]
    decide

/-- C10: the empty snippet is not representable: whenever the normalised
code is empty, `decode(encode(code))` with no language returns `null`
rather than a payload with empty code, since `decode` returns `null`
whenever the decompressed text is empty. -/
theorem empty_snippet_not_representable :
    (∀ (C : Compressor) (code : String), normalizeCode code = "" →
      decode C (encode C code none) = none) ∧
    (∀ (C : Compressor) (hash : String) (bytes : List Nat),
      fromUrlSafeBase64 hash.data = some bytes → C.decompress bytes = some "" →
      decode C hash = none) := by
  constructor
  · intro C code hn
    have hfree : dictTokenFree (payloadOf code none) := by
      show dictTokenFree (normalizeCode code)
      rw [hn]
      intro pt hpt ch hch hm
      rw [empty_string_data] at hm
      simp at hm
    rw [decode_encode_master C code none hfree]
    rw [show payloadOf code none = normalizeCode code from rfl, hn]
    rw [if_pos rfl]
  · intro C hash bytes hb hd
    rw [decode]
    by_cases h0 : hash = ""
    · rw [if_pos h0]
    · rw [if_neg h0, hb]
      show (match C.decompress bytes with
        | none => none
        | some decompressed => if decompressed = "" then none
          else some (splitLang (reverseDictionary decompressed))) = none
      rw [hd]
      rfl

/-- C10 witness: the empty string normalises to the empty string, its
encoding decodes to `null`, and a decompressed empty text yields `null`. -/
theorem empty_snippet_not_representable_witness :
    decode idComp (encode idComp "   " none) = none ∧ decode idComp "" = none := by
  constructor
  · exact empty_snippet_not_representable.1 idComp "   " (by decide)
  · exact empty_snippet_not_representable.2 idComp "" [] (by decide) (by decide)

/-- C3 counterexample: an input containing '+', a character outside the
base64url alphabet, can still decode successfully: the base64 layer maps
'-' to '+' before decoding, so '+' is accepted as the 6-bit value 62 and
"AA+A" decodes to the same payload as the genuine token "AA-A". -/
theorem decode_accepts_plus :
    ("AA+A" : String).data.contains '+' = true ∧
    base64UrlAlphabet.contains '+' = false ∧
    decode idComp "AA+A" = some { code := "ྀ", lang := none } ∧
    decode idComp "AA+A" = decode idComp "AA-A" := by
  decide

/-- C3 amended: `decode` is total (never throws) and returns `null` on empty
input, on input the forgiving base64 decoder rejects (characters outside the
accepted alphabet, misplaced padding, or a bad length), on decompression
failure, and on any other failure of the pipeline; but an input character
outside the base64url alphabet that the underlying `atob` accepts (such as
'+' or '/') does not by itself force `null`. -/
theorem decode_null_safety_amended :
    (∀ C : Compressor, decode C "" = none) ∧
    (∀ (C : Compressor) (hash : String), fromUrlSafeBase64 hash.data = none →
      decode C hash = none) ∧
    (∀ (C : Compressor) (hash : String) (bytes : List Nat),
      fromUrlSafeBase64 hash.data = some bytes → C.decompress bytes = none →
      decode C hash = none) ∧
    (∀ C : Compressor, decode C "not-valid-base64!!" = none) := by
  have h2 : ∀ (C : Compressor) (hash : String), fromUrlSafeBase64 hash.data = none →
      decode C hash = none := by
    intro C hash hb
    rw [decode]
    by_cases h0 : hash = ""
    · rw [if_pos h0]
    · rw [if_neg h0, hb]
  refine ⟨fun C => by rw [decode, if_pos rfl], h2, ?_, ?_⟩
  · intro C hash bytes hb hd
    rw [decode]
    by_cases h0 : hash = ""
    · rw [if_pos h0]
    · rw [if_neg h0, hb]
      show (match C.decompress bytes with
        | none => none
        | some decompressed => if decompressed = "" then none
          else some (splitLang (reverseDictionary decompressed))) = none
      rw [hd]
  · intro C
    exact h2 C "not-valid-base64!!" (by decide)

/-- C3 witness: the amended null cases at concrete inputs — empty input,
an out-of-alphabet input, and a decompression failure. -/
theorem decode_null_safety_amended_witness :
    decode idComp "" = none ∧ decode idComp "x" = none ∧ decode idComp "AAA" = none ∧
    decode idComp "not-valid-base64!!" = none :=
  ⟨decode_null_safety_amended.1 idComp,
    decode_null_safety_amended.2.1 idComp "x" (by decide),
    decode_null_safety_amended.2.2.1 idComp "AAA" [0, 0] (by decide) (by decide),
    decode_null_safety_amended.2.2.2 idComp⟩

/-- C1 counterexample: the round-trip `decode(encode(c))` is not the
normalised code for every string: a code body consisting of the reserved
dictionary token U+E003 is corrupted into the pattern "return " on decode,
while its normalisation is itself. -/
theorem roundtrip_corrupts_reserved_tokens :
    normalizeCode "\uE003" = "\uE003" ∧
    decode idComp (encode idComp "\uE003" none) = some { code := "return ", lang := none } ∧
    ¬(("return " : String) = "\uE003") := by
  decide

/-- C1 amended: for every compressor, every code string free of the
dictionary's reserved token characters, and every valid language identifier
`l` (matching `^[A-Za-z][A-Za-z0-9-]{0,18}$`), `decode(encode(c, l))` yields
code `normalize(c)` and language `l`; with the language omitted the same
holds provided `normalize(c)` is nonempty and its own pipe-split yields no
language tag. -/
theorem roundtrip_amended :
    (∀ (C : Compressor) (code l : String), dictTokenFree code → langValid l = true →
      decode C (encode C code (some l)) = some { code := normalizeCode code, lang := some l }) ∧
    (∀ (C : Compressor) (code : String), dictTokenFree code →
      ¬(normalizeCode code = "") →
      splitLang (normalizeCode code) = { code := normalizeCode code, lang := none } →
      decode C (encode C code none) = some { code := normalizeCode code, lang := none }) := by
  constructor
  · intro C code l hfree hl
    have hfree' : dictTokenFree (payloadOf code (some l)) :=
      dictTokenFree_payload code (some l) hfree
        (fun l' hl' => by cases hl'; exact hl)
    rw [decode_encode_master C code (some l) hfree']
    have hle : ¬(l = "") := by
      intro he
      rw [he] at hl
      revert hl
      decide
    have hpay : payloadOf code (some l)
        = if l = "" then normalizeCode code else l ++ "|" ++ normalizeCode code := rfl
    rw [hpay, if_neg hle]
    have hne : ¬(l ++ "|" ++ normalizeCode code = "") := by
      apply string_ne_empty_of_data
      rw [string_append_data, string_append_data]
      simp
    rw [if_neg hne, splitLang_prefixed l (normalizeCode code) hl]
  · intro C code hfree hne hsplit
    have hfree' : dictTokenFree (payloadOf code none) :=
      dictTokenFree_payload code none hfree (fun l' hl' => by cases hl')
    rw [decode_encode_master C code none hfree']
    rw [show payloadOf code none = normalizeCode code from rfl]
    rw [if_neg hne, hsplit]

/-- C1 witness: the amended round-trip at concrete inputs, with and without
a language. -/
theorem roundtrip_amended_witness :
    decode idComp (encode idComp "hello" (some "js"))
      = some { code := "hello", lang := some "js" } ∧
    decode idComp (encode idComp "x = 1" none) = some { code := "x = 1", lang := none } := by
  constructor
  · have h := roundtrip_amended.1 idComp "hello" "js" (by decide) (by decide)
    rw [h]
    decide
  · have h := roundtrip_amended.2 idComp "x = 1" (by decide) (by decide) (by decide)
    rw [h]
    decide


theorem updateUrlHash_snd (C : Compressor) (st : BrowserState) (code : String)
    (lang : Option String) :
    (updateUrlHash C st code lang).2 =
      if URL_ERROR_LIMIT < (st.origin ++ st.pathname ++ "#" ++ encode C code lang).length
      then st else { st with fragment := "#" ++ encode C code lang } := by
  simp only [updateUrlHash]
  split
  · rename_i hcond
    have hp : ¬(URL_ERROR_LIMIT <
        (st.origin ++ st.pathname ++ "#" ++ encode C code lang).length) := by
      simpa using hcond
    rw [if_neg hp]
  · rename_i hcond
    have hp : URL_ERROR_LIMIT <
        (st.origin ++ st.pathname ++ "#" ++ encode C code lang).length := by
      simpa using hcond
    rw [if_pos hp]

theorem string_length_data (s : String) : s.length = s.data.length := rfl

theorem origin_eval (n : Nat) (fr : String) (hist : List String) :
    (updateUrlHash idComp ⟨⟨List.replicate n 'a'⟩, "", fr, hist⟩ "" none).1.length = n + 1 ∧
    (updateUrlHash idComp ⟨⟨List.replicate n 'a'⟩, "", fr, hist⟩ "" none).1.isWarning
      = (decide (2000 < n + 1) && decide (n + 1 ≤ 8000)) ∧
    (updateUrlHash idComp ⟨⟨List.replicate n 'a'⟩, "", fr, hist⟩ "" none).1.isError
      = decide (8000 < n + 1) := by
  have hlen : ((⟨List.replicate n 'a'⟩ : String) ++ "" ++ "#" ++ encode idComp "" none).length
      = n + 1 := by
    rw [show encode idComp "" none = "" from rfl]
    rw [string_length_data, string_append_data, string_append_data, string_append_data]
    rw [List.length_append, List.length_append, List.length_append, List.length_replicate]
    rfl
  refine ⟨?_, ?_, ?_⟩ <;> rw [updateUrlHash_fst]
  · exact hlen
  · show (decide (URL_WARNING_LIMIT <
        ((⟨List.replicate n 'a'⟩ : String) ++ "" ++ "#" ++ encode idComp "" none).length)
      && decide (((⟨List.replicate n 'a'⟩ : String) ++ "" ++ "#"
        ++ encode idComp "" none).length ≤ URL_ERROR_LIMIT)) = _
    rw [hlen]
    rfl
  · show decide (URL_ERROR_LIMIT <
        ((⟨List.replicate n 'a'⟩ : String) ++ "" ++ "#" ++ encode idComp "" none).length) = _
    rw [hlen]
    rfl

/-- C4: the returned `UrlStatus` has `isWarning` exactly when the full URL
length `n` satisfies `2000 < n ≤ 8000` and `isError` exactly when
`n > 8000`; at the boundaries, a full URL of exactly 2000 characters gives
neither flag, 2001 gives `isWarning`, exactly 8000 gives `isWarning` and not
`isError`, and 8001 gives `isError`. -/
theorem urlStatus_thresholds :
    (∀ (C : Compressor) (st : BrowserState) (code : String) (lang : Option String),
      ((updateUrlHash C st code lang).1.isWarning = true ↔
        2000 < (updateUrlHash C st code lang).1.length ∧
          (updateUrlHash C st code lang).1.length ≤ 8000) ∧
      ((updateUrlHash C st code lang).1.isError = true ↔
        8000 < (updateUrlHash C st code lang).1.length) ∧
      (updateUrlHash C st code lang).1.length
        = (st.origin ++ st.pathname ++ "#" ++ encode C code lang).length) ∧
    ((updateUrlHash idComp ⟨⟨List.replicate 1999 'a'⟩, "", "", []⟩ "" none).1.length = 2000 ∧
      (updateUrlHash idComp ⟨⟨List.replicate 1999 'a'⟩, "", "", []⟩ "" none).1.isWarning = false ∧
      (updateUrlHash idComp ⟨⟨List.replicate 1999 'a'⟩, "", "", []⟩ "" none).1.isError = false) ∧
    ((updateUrlHash idComp ⟨⟨List.replicate 2000 'a'⟩, "", "", []⟩ "" none).1.length = 2001 ∧
      (updateUrlHash idComp ⟨⟨List.replicate 2000 'a'⟩, "", "", []⟩ "" none).1.isWarning = true) ∧
    ((updateUrlHash idComp ⟨⟨List.replicate 7999 'a'⟩, "", "", []⟩ "" none).1.length = 8000 ∧
      (updateUrlHash idComp ⟨⟨List.replicate 7999 'a'⟩, "", "", []⟩ "" none).1.isWarning = true ∧
      (updateUrlHash idComp ⟨⟨List.replicate 7999 'a'⟩, "", "", []⟩ "" none).1.isError = false) ∧
    ((updateUrlHash idComp ⟨⟨List.replicate 8000 'a'⟩, "", "", []⟩ "" none).1.length = 8001 ∧
      (updateUrlHash idComp ⟨⟨List.replicate 8000 'a'⟩, "", "", []⟩ "" none).1.isError = true) := by
  refine ⟨?_,
    ⟨(origin_eval 1999 "" []).1, by rw [(origin_eval 1999 "" []).2.1]; decide,
      by rw [(origin_eval 1999 "" []).2.2]; decide⟩,
    ⟨(origin_eval 2000 "" []).1, by rw [(origin_eval 2000 "" []).2.1]; decide⟩,
    ⟨(origin_eval 7999 "" []).1, by rw [(origin_eval 7999 "" []).2.1]; decide,
      by rw [(origin_eval 7999 "" []).2.2]; decide⟩,
    ⟨(origin_eval 8000 "" []).1, by rw [(origin_eval 8000 "" []).2.2]; decide⟩⟩
  intro C st code lang
  rw [updateUrlHash_fst]
  refine ⟨?_, ?_, rfl⟩
  · show (decide (URL_WARNING_LIMIT <
        (st.origin ++ st.pathname ++ "#" ++ encode C code lang).length)
      && decide ((st.origin ++ st.pathname ++ "#" ++ encode C code lang).length
        ≤ URL_ERROR_LIMIT)) = true ↔ _
    rw [Bool.and_eq_true, decide_eq_true_eq, decide_eq_true_eq]
    exact Iff.rfl
  · show decide (URL_ERROR_LIMIT <
        (st.origin ++ st.pathname ++ "#" ++ encode C code lang).length) = true ↔ _
    rw [decide_eq_true_eq]
    exact Iff.rfl

/-- C5: `updateUrlHash` always computes and returns the status of the
candidate URL; when `isError` holds the browser location is left completely
unchanged, and otherwise only the fragment is replaced by `'#'` followed by
the new token, the navigation history never gaining an entry. -/
theorem updateUrlHash_write_suppression :
    ∀ (C : Compressor) (st : BrowserState) (code : String) (lang : Option String),
      ((updateUrlHash C st code lang).1.isError = true →
        (updateUrlHash C st code lang).2 = st) ∧
      ((updateUrlHash C st code lang).1.isError = false →
        (updateUrlHash C st code lang).2
          = { st with fragment := "#" ++ encode C code lang }) ∧
      (updateUrlHash C st code lang).2.history = st.history ∧
      (updateUrlHash C st code lang).1.length
        = (st.origin ++ st.pathname ++ "#" ++ encode C code lang).length := by
  intro C st code lang
  have hfst := updateUrlHash_fst C st code lang
  have hsnd := updateUrlHash_snd C st code lang
  refine ⟨?_, ?_, ?_, by rw [hfst]⟩
  · intro he
    rw [hfst] at he
    have hp : URL_ERROR_LIMIT <
        (st.origin ++ st.pathname ++ "#" ++ encode C code lang).length := by
      simpa using he
    rw [hsnd, if_pos hp]
  · intro he
    rw [hfst] at he
    have hp : ¬(URL_ERROR_LIMIT <
        (st.origin ++ st.pathname ++ "#" ++ encode C code lang).length) := by
      simpa using he
    rw [hsnd, if_neg hp]
  · rw [hsnd]
    split <;> rfl

/-- C5 witness: at a concrete oversized input the location is untouched
while the status is still returned; at a small input only the fragment is
replaced. -/
theorem updateUrlHash_write_suppression_witness :
    (updateUrlHash idComp ⟨⟨List.replicate 8000 'a'⟩, "", "#old", ["e"]⟩ "" none).2
      = ⟨⟨List.replicate 8000 'a'⟩, "", "#old", ["e"]⟩ ∧
    (updateUrlHash idComp ⟨"h", "", "#old", ["e"]⟩ "hi" none).2
      = ⟨"h", "", "#" ++ encode idComp "hi" none, ["e"]⟩ := by
  constructor
  · apply (updateUrlHash_write_suppression idComp
      ⟨⟨List.replicate 8000 'a'⟩, "", "#old", ["e"]⟩ "" none).1
    rw [(origin_eval 8000 "#old" ["e"]).2.2]
    decide
  · exact (updateUrlHash_write_suppression idComp
      ⟨"h", "", "#old", ["e"]⟩ "hi" none).2.1 (by decide)
